import Mathlib

/-!
Verification of the github-visualizer repository's ingestion / metrics code.

Shallow embedding conventions used throughout this file:
* Python dictionaries coming from JSON payloads are embedded as structures of
  `Option`-typed fields (`none` = key absent).
* ISO-8601 timestamp strings are represented by their observable parse
  outcome, since `datetime` is an external library: `none` = absent or empty
  (falsy), `some none` = present but rejected by `datetime.fromisoformat`,
  `some (some t)` = present and parsing to POSIX time `t` in seconds.
  `timedelta.days` is floor division by 86400 (`Int.fdiv`), and Python
  `int(x)` on a float ratio truncates toward zero (`Int.tdiv`).
* Fallible Python code is embedded as `Except`/`Option` results; an uncaught
  exception is an `.error` value.
-/

/-- Python exception kinds that can escape the embedded code paths. -/
inductive PyErr where
  | valueError
  | ormError
  | clientError
deriving Repr, DecidableEq

/-- Python truthiness of an optional string (`None` and `""` are falsy). -/
def truthyStr : Option String → Bool
  | none => false
  | some s => !(s == "")

/-- Python truthiness of an optional integer (`None` and `0` are falsy). -/
def truthyInt : Option Int → Bool
  | none => false
  | some n => !(n == 0)

/-- Python `value or default` for an optional string field. -/
def pyOrStr (v : Option String) (d : String) : String :=
  match v with
  | none => d
  | some s => if s = "" then d else s

/-- Python `value or default` for an optional integer field. -/
def pyOrInt (v : Option Int) (d : Int) : Int :=
  match v with
  | none => d
  | some n => if n = 0 then d else n

/-! ## Rate-limit tracker (`githubapi/rate_limit.py`) and client (`services.py`) -/

/-- The rate-limit response headers read by `RateLimitInfo.from_response`.
A `none` field is a header absent from the response; present headers carry
the integer the code obtains via `int(...)`. -/
structure ResponseHeaders where
  xRateLimitRemaining : Option Int := none
  xRateLimitLimit : Option Int := none
  xRateLimitReset : Option Int := none
  xRateLimitUsed : Option Int := none
deriving Repr, DecidableEq

/-- `RateLimitInfo` dataclass: `reset_time` is kept as the POSIX timestamp the
code wraps in `datetime.fromtimestamp`. -/
structure RateLimitInfo where
  remaining : Int
  limit : Int
  reset_time : Int
  used : Int
deriving Repr, DecidableEq

/-- `RateLimitInfo.from_response`: each missing header defaults to 0. -/
def RateLimitInfo.from_response (h : ResponseHeaders) : RateLimitInfo :=
  { remaining := h.xRateLimitRemaining.getD 0
    limit := h.xRateLimitLimit.getD 0
    reset_time := h.xRateLimitReset.getD 0
    used := h.xRateLimitUsed.getD 0 }

/-- `RateLimitInfo.is_exceeded`: true iff `remaining <= 0`. -/
def RateLimitInfo.is_exceeded (r : RateLimitInfo) : Bool :=
  r.remaining ≤ 0

/-- `RateLimitInfo.get_reset_seconds`: `max(0, int((reset_time - now).total_seconds()))`,
with `now` the current POSIX time in whole seconds. -/
def RateLimitInfo.get_reset_seconds (r : RateLimitInfo) (now : Int) : Int :=
  max 0 (r.reset_time - now)

/-- Failure modes of `GitHubClient.get`: the rate-limit `Exception` raised by
the code (its message carries the reset delay and the `used`/`limit` counts),
and the `requests.HTTPError` raised by `raise_for_status` (carrying the
status code). -/
inductive ClientError where
  | rateLimitExceeded (reset_seconds used limit : Int)
  | httpError (status : Nat)
deriving Repr, DecidableEq

/-- A completed HTTP response as observed by `GitHubClient.get`: status code,
rate-limit headers, and the decoded JSON body. -/
structure HttpResponse (α : Type) where
  status : Nat
  headers : ResponseHeaders
  body : α
deriving Repr, DecidableEq

/-- `GitHubClient.get`: compute the rate-limit snapshot from the response; if
the status is 403 and the snapshot reports exhaustion, raise the rate-limit
exception; otherwise `raise_for_status` (any 4xx/5xx status); otherwise
return the decoded body. -/
def GitHubClient.get (resp : HttpResponse α) (now : Int) : Except ClientError α :=
  let rate_info := RateLimitInfo.from_response resp.headers
  if resp.status == 403 && rate_info.is_exceeded then
    .error (.rateLimitExceeded (rate_info.get_reset_seconds now) rate_info.used rate_info.limit)
  else if 400 ≤ resp.status ∧ resp.status < 600 then
    .error (.httpError resp.status)
  else
    .ok resp.body

/-! ## Repository payloads and pinned-repo selection -/

/-- One repository JSON object as consumed by the code (see the timestamp
convention in the file header). -/
structure RepoPayload where
  id : Option Int := none
  full_name : Option String := none
  name : Option String := none
  description : Option String := none
  html_url : Option String := none
  stargazers_count : Option Int := none
  forks_count : Option Int := none
  language : Option String := none
  topics : Option (List String) := none
  updated_at : Option (Option Int) := none
  pushed_at : Option (Option Int) := none
deriving Repr, DecidableEq

/-- The sort key `(r.get("stargazers_count", 0), r.get("forks_count", 0))`. -/
def repoSortKey (r : RepoPayload) : Int × Int :=
  (r.stargazers_count.getD 0, r.forks_count.getD 0)

/-- Lexicographic `<=` on Python pairs of integers. -/
def keyLE (p q : Int × Int) : Bool :=
  decide (p.1 < q.1) || (decide (p.1 = q.1) && decide (p.2 ≤ q.2))

/-- Stable insertion of `x` into `l`: `x` goes before the first element it
compares `le` to, so equal elements keep their original relative order. -/
def insertBy {α : Type} (le : α → α → Bool) (x : α) : List α → List α
  | [] => [x]
  | y :: ys => if le x y then x :: y :: ys else y :: insertBy le x ys

/-- Stable sort by the boolean total preorder `le`. Python `sorted` is a
stable sort, and a stable sort is extensionally unique, so this insertion
sort embeds it. -/
def sortBy {α : Type} (le : α → α → Bool) (l : List α) : List α :=
  l.foldr (insertBy le) []

/-- Python `sorted(repos, key=..., reverse=True)`: a stable descending sort
(the comparison is reversed; ties keep their original order). -/
def pySortDescRepos (rs : List RepoPayload) : List RepoPayload :=
  sortBy (fun a b => keyLE (repoSortKey b) (repoSortKey a)) rs

/-- `GitHubClient.get_pinned_repos` (pure part, applied to the fetched repo
list): sort by `(stars, forks)` descending, take the first 6. -/
def GitHubClient.get_pinned_repos (rs : List RepoPayload) : List RepoPayload :=
  (pySortDescRepos rs).take 6

/-! ## Metrics aggregation in the public viewer (`portfolio/views.py`) -/

/-- The condition of the recent-activity generator in `public_viewer`:
`repo.get("updated_at") and (now - fromisoformat(...)).days < 90`.
The truthiness test short-circuits, but the parse itself is not guarded by
any `try`, so a truthy unparsable value raises `ValueError`. -/
def recentCheck (now : Int) (r : RepoPayload) : Except PyErr Bool :=
  match r.updated_at with
  | none => .ok false
  | some none => .error .valueError
  | some (some t) => .ok (decide (Int.fdiv (now - t) 86400 < 90))

/-- `sum(1 for repo in repos if <recentCheck>)` evaluated left to right. -/
def countRecent (now : Int) : List RepoPayload → Except PyErr Nat
  | [] => .ok 0
  | r :: rest =>
    match recentCheck now r with
    | .error e => .error e
    | .ok b =>
      match countRecent now rest with
      | .error e => .error e
      | .ok n => .ok (n + (if b then 1 else 0))

/-- One step of the language histogram: `languages[lang] = languages.get(lang, 0) + 1`
on a Python dict (update in place if the key exists, else append). -/
def histAdd (h : List (String × Nat)) (k : String) : List (String × Nat) :=
  if h.any (fun p => p.1 == k) then
    h.map (fun p => if p.1 == k then (p.1, p.2 + 1) else p)
  else h ++ [(k, 1)]

/-- One repo's step of the language loop:
`lang = repo.get("language"); if lang: languages[lang] += 1`. -/
def langStep (h : List (String × Nat)) (r : RepoPayload) : List (String × Nat) :=
  match r.language with
  | some l => if l = "" then h else histAdd h l
  | none => h

/-- The `languages` dict built by `public_viewer`: one pass over the repos,
counting each truthy `language` value. -/
def languagesHist (rs : List RepoPayload) : List (String × Nat) :=
  rs.foldl langStep []

/-- The fixed keyword table of `public_viewer`'s project-diversity loop. -/
def keywordTable : List (String × List String) :=
  [("Frontend", ["web", "frontend", "react", "vue", "angular"]),
   ("Backend", ["api", "backend", "server", "django", "flask"]),
   ("Mobile", ["mobile", "ios", "android", "flutter", "react-native"]),
   ("AI/ML", ["ml", "ai", "tensorflow", "pytorch", "machine-learning"]),
   ("Data", ["data", "analytics", "visualization", "dashboard"])]

/-- Python `kw in s`: contiguous substring test. -/
def substrMatch (kw s : String) : Bool :=
  decide (kw.toList <:+: s.toList)

/-- Python `str.lower()` (over the characters of the string). -/
def pyLower (s : String) : String :=
  String.mk (s.toList.map Char.toLower)

/-- The tags a single repository contributes:
`if any(kw in name or kw in description for kw in kw_list): project_types.add(t)`
with `name`/`description` being `(repo.get(...) or "").lower()`. -/
def repoTags (r : RepoPayload) : List String :=
  let nm := pyLower (pyOrStr r.name "")
  let ds := pyLower (pyOrStr r.description "")
  (keywordTable.filter
      (fun tk => tk.2.any (fun kw => substrMatch kw nm || substrMatch kw ds))).map
    Prod.fst

/-- `set.add`: the Python set is embedded as its insertion-ordered list of
distinct elements (the only observations made of it are its size and its
sorted listing, neither of which depends on the order). -/
def addTag (acc : List String) (t : String) : List String :=
  if t ∈ acc then acc else acc ++ [t]

/-- The `project_types` Python set accumulated over all repositories. -/
def projectTypes (rs : List RepoPayload) : List String :=
  rs.foldl (fun acc r => (repoTags r).foldl addTag acc) []

/-- Python string comparison: lexicographic on code points. -/
def charListLe : List Char → List Char → Bool
  | [], _ => true
  | _ :: _, [] => false
  | c :: cs, d :: ds =>
    if c.toNat < d.toNat then true
    else if d.toNat < c.toNat then false
    else charListLe cs ds

/-- Python `a <= b` on strings. -/
def strLe (a b : String) : Bool :=
  charListLe a.toList b.toList

/-- `sorted(list(project_types))` (for the empty set this is `[]`, exactly as
the `if project_types else []` branch yields). -/
def projectDiversity (rs : List RepoPayload) : List String :=
  sortBy strLe (projectTypes rs)

/-- Python `int(x * 0.5)`: exact halving then truncation toward zero. -/
def pyHalf (x : Int) : Int :=
  Int.tdiv x 2

/-- Years-of-experience heuristic of `public_viewer`: guarded date parse,
`max(1, int(days / 365))`, defaulting to 1 on missing or unparsable dates. -/
def yearsExperience (now : Int) (created : Option (Option Int)) : Int :=
  match created with
  | none => 1
  | some none => 1
  | some (some t) => max 1 (Int.tdiv (Int.fdiv (now - t) 86400) 365)

/-- The `user_stats` dict assembled by `public_viewer`. -/
structure UserStatsView where
  total_stars_received : Int
  total_forks_received : Int
  repository_count : Nat
  languages_count : Nat
  recent_activity : Nat
  project_diversity : List String
  collaboration_score : Int
  innovation_score : Int
  consistency_score : Int
  years_experience : Int
deriving Repr, DecidableEq

/-- The statistics portion of `public_viewer` (`portfolio/views.py`): the
aggregation over the fetched repository list that builds `user_stats`.
The two recent-repo generators run the unguarded `fromisoformat` parse, so
they are the only failure points; everything else degrades to defaults. -/
def public_viewer_stats (now : Int) (created : Option (Option Int))
    (rs : List RepoPayload) : Except PyErr UserStatsView :=
  let total_stars : Int := (rs.map (fun r => r.stargazers_count.getD 0)).sum
  let total_forks : Int := (rs.map (fun r => r.forks_count.getD 0)).sum
  let languages := languagesHist rs
  match countRecent now rs with
  | .error e => .error e
  | .ok recent_activity =>
    let project_types := projectTypes rs
    let forked_repos : Nat := rs.countP (fun r => decide (0 < r.forks_count.getD 0))
    let collaboration_score : Int := min 100 ((total_forks * 2 + (forked_repos : Int) * 5) * 2)
    let starred_repos : Nat := rs.countP (fun r => decide (0 < r.stargazers_count.getD 0))
    let innovation_base : Int :=
      total_stars + (starred_repos : Int) * 2 + (languages.length : Int) * 5 +
        (project_types.length : Int) * 10
    let innovation_score : Int := min 100 (pyHalf innovation_base)
    match countRecent now rs with
    | .error e => .error e
    | .ok recent_repos =>
      let consistency_score : Int := min 100 ((recent_repos : Int) * 10)
      .ok
        { total_stars_received := total_stars
          total_forks_received := total_forks
          repository_count := rs.length
          languages_count := languages.length
          recent_activity := recent_activity
          project_diversity := projectDiversity rs
          collaboration_score := collaboration_score
          innovation_score := innovation_score
          consistency_score := consistency_score
          years_experience := yearsExperience now created }

/-! ## Contribution calendar builder (`GitHubClient.get_contributions`) -/

/-- One `{date, count, level}` cell. Calendar days are embedded as integer
day numbers; the `strftime("%Y-%m-%d")` string of a day is injective on the
window, so the day number is a faithful stand-in for the date string. -/
structure DayCell where
  date : Int
  count : Nat
  level : Nat
deriving Repr, DecidableEq

/-- One `{"days": [...]}` week entry. -/
structure ContribWeek where
  days : List DayCell
deriving Repr, DecidableEq

/-- The structure returned by `get_contributions`. -/
structure Contributions where
  contribution_weeks : List ContribWeek
  total_contributions : Nat
  current_streak : Nat
  longest_streak : Nat
deriving Repr, DecidableEq

/-- Events are represented by the calendar day their `created_at` string
denotes (`none` when the string starts with no date, e.g. is malformed).
`day_contributions` counts the events of the current day. -/
def eventCount (events : List (Option Int)) (d : Int) : Nat :=
  events.countP (fun e => e == some d)

/-- The 4-bucket level quantization of a day count. -/
def contribLevel (c : Nat) : Nat :=
  if c = 0 then 0 else if c ≤ 3 then 1 else if c ≤ 6 then 2 else 3

/-- The cell built for one day of the loop. -/
def mkDayCell (events : List (Option Int)) (d : Int) : DayCell :=
  { date := d, count := eventCount events d, level := contribLevel (eventCount events d) }

/-- A padding cell. The padding loop recomputes `next_date = current_date +
timedelta(days=1)` without ever advancing `current_date`, so every padding
cell of a week carries the same date. -/
def padCell (d : Int) : DayCell :=
  { date := d, count := 0, level := 0 }

/-- `while len(current_week) < 7: current_week.append(...)` with the fixed
padding date `d`. -/
def padWeek (w : List DayCell) (d : Int) : List DayCell :=
  w ++ List.replicate (7 - w.length) (padCell d)

/-- The day loop of `get_contributions`. The fuel `n+1` counts the days still
to process, so `today` is `current + n` and the Python test
`current_date == today` is `n = 0`. -/
def contribGo (events : List (Option Int)) :
    Nat → Int → List DayCell → List ContribWeek → List ContribWeek
  | 0, _, _, acc => acc
  | n + 1, current, week, acc =>
    if (week ++ [mkDayCell events current]).length = 7 ∨ n = 0 then
      contribGo events n (current + 1) []
        (acc ++ [⟨padWeek (week ++ [mkDayCell events current]) (current + 1)⟩])
    else
      contribGo events n (current + 1) (week ++ [mkDayCell events current]) acc

/-- `GitHubClient.get_contributions` (main path): loop from
`year_ago = today - 365` up to `today` inclusive (366 days). -/
def get_contributions (events : List (Option Int)) (today : Int) : Contributions :=
  let weeks := contribGo events 366 (today - 365) [] []
  { contribution_weeks := weeks
    total_contributions := (weeks.map (fun w => (w.days.map (fun c => c.count)).sum)).sum
    current_streak := 0
    longest_streak := 0 }

/-- A full 7-day week of the grid starting at day `c`. -/
def fullWeek (events : List (Option Int)) (c : Int) : ContribWeek :=
  ⟨[mkDayCell events c, mkDayCell events (c + 1), mkDayCell events (c + 2),
    mkDayCell events (c + 3), mkDayCell events (c + 4), mkDayCell events (c + 5),
    mkDayCell events (c + 6)]⟩

/-- The final 2-day partial week starting at day `c` (= `today - 1`), padded
with five copies of the cell for day `c + 2` (= tomorrow). -/
def partialWeek (events : List (Option Int)) (c : Int) : ContribWeek :=
  ⟨[mkDayCell events c, mkDayCell events (c + 1)] ++ List.replicate 5 (padCell (c + 2))⟩

/-! ## Highlight reordering (`portfolio/views.py reorder_highlights`) -/

/-- A `PortfolioHighlight` row (the fields the reorder endpoint touches). -/
structure Highlight where
  id : Int
  user : Int
  order : Nat
deriving Repr, DecidableEq

/-- One iteration of the reorder loop for submitted entry `hid` at index `i`:
`none` is an entry on which `int(...)` raised (skipped); a missing highlight
(`DoesNotExist`) is also skipped. Primary keys are unique, so the lookup
matches at most one row and is embedded as a guarded map. -/
def reorderStep (u : Int) (s : List Highlight) (i : Nat) (hid : Option Int) :
    List Highlight :=
  match hid with
  | none => s
  | some hid =>
    if s.any (fun h => h.id == hid && h.user == u) then
      s.map (fun h => if h.id == hid && h.user == u then { h with order := i } else h)
    else s

/-- The `for idx, highlight_id in enumerate(order)` loop. -/
def applyReorder (u : Int) : Nat → List (Option Int) → List Highlight → List Highlight
  | _, [], s => s
  | i, hid :: rest, s => applyReorder u (i + 1) rest (reorderStep u s i hid)

/-- `reorder_highlights`: apply the submitted ordering to the store. -/
def reorder_highlights (u : Int) (order : List (Option Int)) (s : List Highlight) :
    List Highlight :=
  applyReorder u 0 order s

/-- The pointwise effect of one reorder iteration on a single row. -/
def cellStep (u : Int) (i : Nat) (hid : Option Int) (h : Highlight) : Highlight :=
  match hid with
  | none => h
  | some hid => if h.id == hid && h.user == u then { h with order := i } else h

/-- The pointwise effect of the whole reorder loop on a single row. -/
def applyCells (u : Int) : Nat → List (Option Int) → Highlight → Highlight
  | _, [], h => h
  | i, hid :: rest, h => applyCells u (i + 1) rest (cellStep u i hid h)

/-! ## Ingest pipeline (`GitHubIngestService`, `portfolio/models.py`) -/

/-- A stored `Repository` row (keyed by the provider's immutable `repo_id`). -/
structure RepoRow where
  repo_id : Int
  owner : Int
  name : String
  full_name : String
  description : String
  html_url : String
  stargazers_count : Int
  forks_count : Int
  language_primary : String
  languages : List (String × Int)
  topics : List String
  pushed_at : Option Int
  updated_at : Option Int
  is_pinned : Bool
deriving Repr, DecidableEq

/-- A stored `CommitActivity` row, unique per `(repo, week)`. The foreign key
`repo` is embedded as the referenced repository's immutable `repo_id`, and
`week` as the epoch day of the week start. -/
structure ActivityRow where
  owner : Int
  repo_id : Int
  week : Int
  commits : Int
deriving Repr, DecidableEq

/-- The `UserProfile` fields written by `_upsert_profile`. -/
structure ProfileRow where
  github_username : String
  avatar_url : String
  bio : String
  company : String
  location : String
  blog : String
  html_url : String
  followers : Int
  following : Int
  public_repos : Int
deriving Repr, DecidableEq

/-- The `/user` JSON payload. -/
structure UserData where
  login : Option String := none
  avatar_url : Option String := none
  bio : Option String := none
  company : Option String := none
  location : Option String := none
  blog : Option String := none
  html_url : Option String := none
  followers : Option Int := none
  following : Option Int := none
  public_repos : Option Int := none
deriving Repr, DecidableEq

/-- One weekly bucket of `/repos/{owner}/{repo}/stats/commit_activity`.
`days` is `none` when the key is absent or not a list. -/
structure WeekPayload where
  week : Option Int := none
  days : Option (List Int) := none
  total : Option Int := none
deriving Repr, DecidableEq

/-- The relational store as observed by the pipeline, plus a log of the
per-repo fetches it attempts (languages / commit activity). -/
structure DB where
  repos : List RepoRow
  activities : List ActivityRow
  profile : Option ProfileRow
  snapshots : List UserData
  fetch_log : List String
deriving Repr, DecidableEq

/-- The upstream provider as seen from one sync: the token resolution and the
response of every endpoint the pipeline can hit. Identical upstream payloads
mean one fixed `Upstream` value used by both runs. -/
structure Upstream where
  token : Option String
  user_resp : Except Unit UserData
  repos_pushed : Except Unit (List RepoPayload)
  repos_updated : Except Unit (List RepoPayload)
  langs : String → String → Except Unit (List (String × Int))
  activity : String → String → Except Unit (List WeekPayload)

/-- `_parse_dt`: falsy values and unparsable strings give `None`. -/
def parse_dt (v : Option (Option Int)) : Option Int :=
  match v with
  | none => none
  | some none => none
  | some (some t) => some t

/-- Python `full_name.split("/")`. -/
def pySplitSlash (s : String) : List String :=
  (s.toList.splitOn '/').map (fun cs => String.mk cs)

/-- The `Repository` defaults written by `_upsert_repo` (with the language
mapping already defaulted to `{}` on fetch failure). -/
def mkRepoRow (u rid : Int) (data : RepoPayload) (full_name repo_name : String)
    (languages : List (String × Int)) (is_pinned : Bool) : RepoRow :=
  { repo_id := rid
    owner := u
    name := pyOrStr data.name repo_name
    full_name := full_name
    description := pyOrStr data.description ""
    html_url := pyOrStr data.html_url ""
    stargazers_count := pyOrInt data.stargazers_count 0
    forks_count := pyOrInt data.forks_count 0
    language_primary := pyOrStr data.language ""
    languages := languages
    topics := data.topics.getD []
    pushed_at := parse_dt data.pushed_at
    updated_at := parse_dt data.updated_at
    is_pinned := is_pinned }

/-- `Repository.objects.update_or_create(repo_id=..., defaults=...)`:
update the unique matching row, create when absent, and raise
(`MultipleObjectsReturned`) when the store has several rows with the key. -/
def updateRepoRows (rid : Int) (row : RepoRow) (rows : List RepoRow) :
    Option (List RepoRow) :=
  match (rows.filter (fun r => r.repo_id == rid)).length with
  | 0 => some (rows ++ [row])
  | 1 => some (rows.map (fun r => if r.repo_id == rid then row else r))
  | _ => none

/-- The `CommitActivity` row value for one weekly bucket. -/
def weekRow (u rid : Int) (w : WeekPayload) : ActivityRow :=
  { owner := u
    repo_id := rid
    week := Int.fdiv (w.week.getD 0) 86400
    commits :=
      match w.days with
      | some ds => ds.sum
      | none => w.total.getD 0 }

/-- `CommitActivity.objects.update_or_create(owner=..., repo=..., week=...,
defaults={"commits": ...})`: look up by the full `(owner, repo, week)` triple;
on a miss, creating a row that collides with the `unique_together
("repo", "week")` constraint raises `IntegrityError`; several full matches
raise `MultipleObjectsReturned`. -/
def updateActivityRows (u rid w c : Int) (rows : List ActivityRow) :
    Option (List ActivityRow) :=
  if rows.any (fun a => a.owner == u && a.repo_id == rid && a.week == w) then
    if (rows.filter (fun a => a.owner == u && a.repo_id == rid && a.week == w)).length = 1 then
      some (rows.map (fun a =>
        if a.owner == u && a.repo_id == rid && a.week == w then { a with commits := c } else a))
    else none
  else if rows.any (fun a => a.repo_id == rid && a.week == w) then
    none
  else some (rows ++ [{ owner := u, repo_id := rid, week := w, commits := c }])

/-- The per-repo commit-activity loop: upsert each weekly bucket; the first
ORM exception aborts the remaining buckets (it is caught by the enclosing
`try`, keeping the rows already written). -/
def applyActivityWeeks (u rid : Int) : List WeekPayload → List ActivityRow → List ActivityRow
  | [], rows => rows
  | w :: rest, rows =>
    let r := weekRow u rid w
    match updateActivityRows u rid r.week r.commits rows with
    | some rows' => applyActivityWeeks u rid rest rows'
    | none => rows

/-- `GitHubIngestService._upsert_repo`: skip payloads with a falsy id or full
name; split the full name (a malformed one raises out of the pipeline);
best-effort fetch languages (failure gives `{}`); upsert the repository;
best-effort fetch and upsert commit activity (failure is logged and
skipped). -/
def upsertRepoM (up : Upstream) (u : Int) (data : RepoPayload) (is_pinned : Bool)
    (db : DB) : Option PyErr × DB :=
  if !truthyInt data.id || !truthyStr data.full_name then (none, db)
  else
    let rid := data.id.getD 0
    let fn := data.full_name.getD ""
    match pySplitSlash fn with
    | [owner_name, repo_name] =>
      let db1 := { db with
        fetch_log := db.fetch_log ++ ["languages:" ++ owner_name ++ "/" ++ repo_name] }
      let languages :=
        match up.langs owner_name repo_name with
        | .ok l => l
        | .error _ => []
      let row := mkRepoRow u rid data fn repo_name languages is_pinned
      match updateRepoRows rid row db1.repos with
      | none => (some .ormError, db1)
      | some repos' =>
        let db2 := { db1 with
          repos := repos'
          fetch_log := db1.fetch_log ++ ["commit_activity:" ++ owner_name ++ "/" ++ repo_name] }
        match up.activity owner_name repo_name with
        | .error _ => (none, db2)
        | .ok weeks =>
          (none, { db2 with activities := applyActivityWeeks u rid weeks db2.activities })
    | _ => (some .valueError, db)

/-- The repo loops of `_sync_repos`: process payloads in order, stopping at
the first uncaught exception. -/
def processRepos (up : Upstream) (u : Int) (is_pinned : Bool) :
    List RepoPayload → DB → Option PyErr × DB
  | [], db => (none, db)
  | d :: rest, db =>
    match upsertRepoM up u d is_pinned db with
    | (some e, db') => (some e, db')
    | (none, db') => processRepos up u is_pinned rest db'

/-- `_upsert_profile`: every field is overwritten from the payload with
falsy-to-default coercions. -/
def upsertProfileRow (ud : UserData) : ProfileRow :=
  { github_username := pyOrStr ud.login ""
    avatar_url := pyOrStr ud.avatar_url ""
    bio := pyOrStr ud.bio ""
    company := pyOrStr ud.company ""
    location := pyOrStr ud.location ""
    blog := pyOrStr ud.blog ""
    html_url := pyOrStr ud.html_url ""
    followers := pyOrInt ud.followers 0
    following := pyOrInt ud.following 0
    public_repos := pyOrInt ud.public_repos 0 }

/-- `GitHubIngestService.sync_all`: no-op without a token; fetch the profile
(a failure propagates); upsert the profile and append a snapshot; then sync
the pinned subset followed by the full repository list. -/
def sync_all (up : Upstream) (u : Int) (db : DB) : Option PyErr × DB :=
  if !truthyStr up.token then (none, db)
  else
    match up.user_resp with
    | .error _ => (some .clientError, db)
    | .ok ud =>
      let db1 := { db with
        profile := some (upsertProfileRow ud)
        snapshots := db.snapshots ++ [ud] }
      if !truthyStr ud.login then (none, db1)
      else
        match up.repos_pushed with
        | .error _ => (some .clientError, db1)
        | .ok rsP =>
          match processRepos up u true (GitHubClient.get_pinned_repos rsP) db1 with
          | (some e, db2) => (some e, db2)
          | (none, db2) =>
            match up.repos_updated with
            | .error _ => (some .clientError, db2)
            | .ok rsU => processRepos up u false rsU db2

/-! ## Generic update-or-create stores

`update_or_create` keyed by an immutable natural key is an update-in-place
or append operation. The following generic definitions capture one such
operation and a batch of them, together with a normal form used to prove
idempotence. -/

/-- One upsert of the full row `v` at key `κ v`. -/
def upsertBy {α K : Type} [DecidableEq K] (κ : α → K) (v : α) (l : List α) : List α :=
  if l.any (fun r => decide (κ r = κ v)) then l.map (fun r => if κ r = κ v then v else r)
  else l ++ [v]

/-- A batch of upserts applied left to right. -/
def runUpserts {α K : Type} [DecidableEq K] (κ : α → K) (ops : List α) (l : List α) :
    List α :=
  ops.foldl (fun acc v => upsertBy κ v acc) l

/-- The last row of `ops` sharing a key with `r`, else `r` itself. -/
def lastOv {α K : Type} [DecidableEq K] (κ : α → K) (ops : List α) (r : α) : α :=
  ops.foldl (fun cur v => if κ v = κ cur then v else cur) r

/-- The rows a batch appends, in first-occurrence order of the keys not
already in `ks`, each carrying its final value. -/
def freshOps {α K : Type} [DecidableEq K] (κ : α → K) : List α → List K → List α
  | [], _ => []
  | v :: rest, ks =>
    if κ v ∈ ks then freshOps κ rest ks
    else lastOv κ rest v :: freshOps κ rest (κ v :: ks)

/-- Key of a stored repository row. -/
def repoKey (r : RepoRow) : Int := r.repo_id

/-- Key of a stored commit-activity row as looked up by the pipeline. -/
def actKey (a : ActivityRow) : Int × Int × Int := (a.owner, a.repo_id, a.week)

/-! ### Extraction of the upsert batch a sync performs

The rows a run writes are determined by the upstream alone (never by the
store), so each run applies one fixed batch of upserts per table. -/

/-- The repository upsert a single payload contributes: `none` = the payload
raises (malformed full name), `some none` = skipped (falsy id / full name),
`some (some row)` = this row is upserted. -/
def repoOpOf (up : Upstream) (u : Int) (is_pinned : Bool) (d : RepoPayload) :
    Option (Option RepoRow) :=
  if !truthyInt d.id || !truthyStr d.full_name then some none
  else
    match pySplitSlash (d.full_name.getD "") with
    | [owner_name, repo_name] =>
      let languages :=
        match up.langs owner_name repo_name with
        | .ok l => l
        | .error _ => []
      some (some (mkRepoRow u (d.id.getD 0) d (d.full_name.getD "") repo_name languages
        is_pinned))
    | _ => none

/-- The commit-activity upserts a single payload contributes. -/
def actOpsOfPayload (up : Upstream) (u : Int) (d : RepoPayload) : List ActivityRow :=
  if !truthyInt d.id || !truthyStr d.full_name then []
  else
    match pySplitSlash (d.full_name.getD "") with
    | [owner_name, repo_name] =>
      match up.activity owner_name repo_name with
      | .ok weeks => weeks.map (weekRow u (d.id.getD 0))
      | .error _ => []
    | _ => []

/-- The upsert batches of one repo-payload list, stopping at the first
payload that raises; the flag records whether the whole list was processed. -/
def repoOpsList (up : Upstream) (u : Int) (is_pinned : Bool) :
    List RepoPayload → List RepoRow × List ActivityRow × Bool
  | [] => ([], [], true)
  | d :: rest =>
    match repoOpOf up u is_pinned d with
    | none => ([], [], false)
    | some none => repoOpsList up u is_pinned rest
    | some (some row) =>
      let t := repoOpsList up u is_pinned rest
      (row :: t.1, actOpsOfPayload up u d ++ t.2.1, t.2.2)

/-- The full upsert batches of one `sync_all` run. -/
def syncOps (up : Upstream) (u : Int) : List RepoRow × List ActivityRow :=
  if !truthyStr up.token then ([], [])
  else
    match up.user_resp with
    | .error _ => ([], [])
    | .ok ud =>
      if !truthyStr ud.login then ([], [])
      else
        match up.repos_pushed with
        | .error _ => ([], [])
        | .ok rsP =>
          match repoOpsList up u true (GitHubClient.get_pinned_repos rsP) with
          | (r1, a1, false) => (r1, a1)
          | (r1, a1, true) =>
            match up.repos_updated with
            | .error _ => (r1, a1)
            | .ok rsU =>
              let t := repoOpsList up u false rsU
              (r1 ++ t.1, a1 ++ t.2.1)

/-- Store sanity for the repository table: `repo_id` is unique. -/
def ReposSane (rows : List RepoRow) : Prop :=
  (rows.map repoKey).Nodup

/-- Store sanity for the activity table of the syncing user `u`: every row
belongs to `u` (the pipeline only ever writes rows for the invoking account)
and the `unique_together ("repo", "week")` constraint holds. -/
def ActsSane (u : Int) (rows : List ActivityRow) : Prop :=
  (∀ a ∈ rows, a.owner = u) ∧ (rows.map (fun a => (a.repo_id, a.week))).Nodup

/-- Specification-side predicate: the repository was updated within 90 days
of `now` (its `updated_at` is truthy and parses to a time less than 90 days
old). -/
def isRecent (now : Int) (r : RepoPayload) : Bool :=
  match r.updated_at with
  | some (some t) => decide (Int.fdiv (now - t) 86400 < 90)
  | _ => false

/-- Specification-side list of the truthy language fields of a repo list. -/
def truthyLangs (rs : List RepoPayload) : List String :=
  rs.filterMap (fun r =>
    match r.language with
    | some l => if l = "" then none else some l
    | none => none)

/-! # Theorems -/

/-! ## C1: error taxonomy of the single request path -/

theorem keyLE_total (p q : Int × Int) : keyLE p q || keyLE q p := by
  simp only [keyLE, Bool.or_eq_true, Bool.and_eq_true, decide_eq_true_eq]
  omega

theorem keyLE_trans (p q r : Int × Int) (h1 : keyLE p q) (h2 : keyLE q r) : keyLE p r := by
  simp only [keyLE, Bool.or_eq_true, Bool.and_eq_true, decide_eq_true_eq] at h1 h2 ⊢
  omega

theorem insertBy_mem {α : Type} (le : α → α → Bool) (x : α) (l : List α) (z : α) :
    z ∈ insertBy le x l ↔ z = x ∨ z ∈ l := by
  induction l with
  | nil => simp [insertBy]
  | cons y ys ih =>
    rw [insertBy]
    by_cases hxy : le x y = true
    · rw [if_pos hxy]
      simp
    · rw [if_neg hxy]
      simp only [List.mem_cons, ih]
      tauto

theorem insertBy_perm {α : Type} (le : α → α → Bool) (x : α) (l : List α) :
    List.Perm (insertBy le x l) (x :: l) := by
  induction l with
  | nil => exact List.Perm.refl _
  | cons y ys ih =>
    rw [insertBy]
    by_cases hxy : le x y = true
    · rw [if_pos hxy]
    · rw [if_neg hxy]
      exact (ih.cons y).trans (List.Perm.swap x y ys)

theorem insertBy_pairwise {α : Type} (le : α → α → Bool)
    (htot : ∀ a b, le a b || le b a)
    (htr : ∀ a b c, le a b → le b c → le a c)
    (x : α) (l : List α) (h : l.Pairwise (fun a b => le a b = true)) :
    (insertBy le x l).Pairwise (fun a b => le a b = true) := by
  induction l with
  | nil => simp [insertBy]
  | cons y ys ih =>
    obtain ⟨hy, hys⟩ := List.pairwise_cons.1 h
    rw [insertBy]
    by_cases hxy : le x y = true
    · rw [if_pos hxy]
      refine List.pairwise_cons.2 ⟨?_, h⟩
      intro z hz
      rcases List.mem_cons.1 hz with rfl | hz
      · exact hxy
      · exact htr x y z hxy (hy z hz)
    · rw [if_neg hxy]
      refine List.pairwise_cons.2 ⟨?_, ih hys⟩
      intro z hz
      rcases (insertBy_mem le x ys z).1 hz with hzx | hz
      · rw [hzx]
        have h2 := htot x y
        simp only [hxy, Bool.false_or] at h2
        exact h2
      · exact hy z hz

theorem sortBy_perm {α : Type} (le : α → α → Bool) (l : List α) :
    List.Perm (sortBy le l) l := by
  induction l with
  | nil => exact List.Perm.refl _
  | cons x xs ih =>
    rw [sortBy, List.foldr_cons]
    exact (insertBy_perm le x _).trans (ih.cons x)

theorem sortBy_pairwise {α : Type} (le : α → α → Bool)
    (htot : ∀ a b, le a b || le b a)
    (htr : ∀ a b c, le a b → le b c → le a c) (l : List α) :
    (sortBy le l).Pairwise (fun a b => le a b = true) := by
  induction l with
  | nil => simp [sortBy]
  | cons x xs ih =>
    rw [sortBy, List.foldr_cons]
    exact insertBy_pairwise le htot htr x _ ih

theorem sortBy_mem {α : Type} (le : α → α → Bool) (l : List α) (z : α) :
    z ∈ sortBy le l ↔ z ∈ l :=
  (sortBy_perm le l).mem_iff

/-- C1: on the single request path, a 403 status whose header snapshot
reports `remaining <= 0` fails with the rate-limit error carrying
`max 0 (reset_header - now)` whole seconds plus the usage counts; otherwise
any 4xx/5xx fails with the HTTP error carrying the status; otherwise the
decoded body is returned; and missing rate-limit headers parse as zero. -/
theorem client_get_taxonomy {α : Type} (resp : HttpResponse α) (now : Int) :
    (resp.status = 403 → (RateLimitInfo.from_response resp.headers).remaining ≤ 0 →
      GitHubClient.get resp now =
        .error (.rateLimitExceeded
          (max 0 ((RateLimitInfo.from_response resp.headers).reset_time - now))
          (RateLimitInfo.from_response resp.headers).used
          (RateLimitInfo.from_response resp.headers).limit)) ∧
    (¬ (resp.status = 403 ∧ (RateLimitInfo.from_response resp.headers).remaining ≤ 0) →
      400 ≤ resp.status → resp.status < 600 →
      GitHubClient.get resp now = .error (.httpError resp.status)) ∧
    (¬ (resp.status = 403 ∧ (RateLimitInfo.from_response resp.headers).remaining ≤ 0) →
      ¬ (400 ≤ resp.status ∧ resp.status < 600) →
      GitHubClient.get resp now = .ok resp.body) ∧
    RateLimitInfo.from_response {} = { remaining := 0, limit := 0, reset_time := 0, used := 0 } := by
  refine ⟨?_, ?_, ?_, rfl⟩
  · intro h1 h2
    have hb : (resp.status == 403 && (RateLimitInfo.from_response resp.headers).is_exceeded)
        = true := by
      simp [RateLimitInfo.is_exceeded, h1, h2]
    simp [GitHubClient.get, hb, RateLimitInfo.get_reset_seconds]
  · intro h hge hlt
    have hb : (resp.status == 403 && (RateLimitInfo.from_response resp.headers).is_exceeded)
        = false := by
      simp only [RateLimitInfo.is_exceeded, Bool.and_eq_false_iff, beq_eq_false_iff_ne,
        ne_eq, decide_eq_false_iff_not, not_le]
      by_cases h403 : resp.status = 403
      · right
        have := fun hle => h ⟨h403, hle⟩
        omega
      · left; exact h403
    simp [GitHubClient.get, hb, hge, hlt]
  · intro h hne
    have hb : (resp.status == 403 && (RateLimitInfo.from_response resp.headers).is_exceeded)
        = false := by
      simp only [RateLimitInfo.is_exceeded, Bool.and_eq_false_iff, beq_eq_false_iff_ne,
        ne_eq, decide_eq_false_iff_not, not_le]
      by_cases h403 : resp.status = 403
      · right
        have := fun hle => h ⟨h403, hle⟩
        omega
      · left; exact h403
    simp [GitHubClient.get, hb, hne]

theorem client_get_taxonomy_witness :
    ((403 : Nat) = 403 ∧ ({ remaining := 0, limit := 60, reset_time := 150, used := 60 }
        : RateLimitInfo).remaining ≤ 0) ∧
    GitHubClient.get
        { status := 403
          headers := { xRateLimitRemaining := some 0, xRateLimitLimit := some 60,
                       xRateLimitReset := some 150, xRateLimitUsed := some 60 }
          body := (7 : Nat) } 100 =
      .error (.rateLimitExceeded 50 60 60) := by
  constructor
  · exact ⟨rfl, by decide⟩
  · simpa using
      (client_get_taxonomy
        { status := 403
          headers := { xRateLimitRemaining := some 0, xRateLimitLimit := some 60,
                       xRateLimitReset := some 150, xRateLimitUsed := some 60 }
          body := (7 : Nat) } 100).1 rfl (by decide)

/-! ## C4: pinned-repo selection -/

/-- C4: the pinned subset is the stable descending `(stars, forks)` sort of
the fetched list truncated to 6; the sort is a permutation of the input and
pairwise descending (ties in stars resolved by forks), so with at least 6
repositories the result has exactly 6 elements, each of whose key is at
least that of every repository not selected. -/
theorem get_pinned_repos_spec (rs : List RepoPayload) (h6 : 6 ≤ rs.length) :
    GitHubClient.get_pinned_repos rs = (pySortDescRepos rs).take 6 ∧
    List.Perm (pySortDescRepos rs) rs ∧
    (pySortDescRepos rs).Pairwise
      (fun a b => keyLE (repoSortKey b) (repoSortKey a) = true) ∧
    (GitHubClient.get_pinned_repos rs).length = 6 ∧
    ∀ x ∈ GitHubClient.get_pinned_repos rs,
      ∀ y ∈ (pySortDescRepos rs).drop 6, keyLE (repoSortKey y) (repoSortKey x) = true := by
  have hperm : List.Perm (pySortDescRepos rs) rs := sortBy_perm _ rs
  have hsorted : (pySortDescRepos rs).Pairwise
      (fun a b => keyLE (repoSortKey b) (repoSortKey a) = true) :=
    sortBy_pairwise _
      (fun a b => keyLE_total (repoSortKey b) (repoSortKey a))
      (fun a b c hab hbc => keyLE_trans _ _ _ hbc hab) rs
  have hlen : (pySortDescRepos rs).length = rs.length := hperm.length_eq
  refine ⟨rfl, hperm, hsorted, ?_, ?_⟩
  · simp only [GitHubClient.get_pinned_repos, List.length_take]
    omega
  · have hp := hsorted
    rw [← List.take_append_drop 6 (pySortDescRepos rs)] at hp
    have := (List.pairwise_append.1 hp).2.2
    exact fun x hx y hy => this x hx y hy

theorem get_pinned_repos_spec_witness :
    6 ≤ ([{ stargazers_count := some 5, forks_count := some 1 },
          { stargazers_count := some 10, forks_count := some 0 },
          { stargazers_count := some 10, forks_count := some 4 },
          { stargazers_count := some 3 },
          { stargazers_count := some 8, forks_count := some 2 },
          { stargazers_count := some 8, forks_count := some 9 },
          { stargazers_count := some 8, forks_count := some 2 },
          { stargazers_count := some 1 }] : List RepoPayload).length ∧
    (GitHubClient.get_pinned_repos
        [{ stargazers_count := some 5, forks_count := some 1 },
         { stargazers_count := some 10, forks_count := some 0 },
         { stargazers_count := some 10, forks_count := some 4 },
         { stargazers_count := some 3 },
         { stargazers_count := some 8, forks_count := some 2 },
         { stargazers_count := some 8, forks_count := some 9 },
         { stargazers_count := some 8, forks_count := some 2 },
         { stargazers_count := some 1 }]).length = 6 := by
  constructor
  · decide
  · exact (get_pinned_repos_spec _ (by decide)).2.2.2.1

/-! ## C5: the contribution calendar grid -/

theorem contribGo_step_mid (events : List (Option Int)) (n : Nat) (c : Int)
    (week : List DayCell) (acc : List ContribWeek)
    (h7 : week.length + 1 ≠ 7) (hn : n ≠ 0) :
    contribGo events (n + 1) c week acc =
      contribGo events n (c + 1) (week ++ [mkDayCell events c]) acc := by
  have hc : ¬((week ++ [mkDayCell events c]).length = 7 ∨ n = 0) := by
    simp only [List.length_append, List.length_cons, List.length_nil]
    omega
  rw [contribGo, if_neg hc]

theorem contribGo_step_close (events : List (Option Int)) (n : Nat) (c : Int)
    (week : List DayCell) (acc : List ContribWeek)
    (h7 : (week ++ [mkDayCell events c]).length = 7) :
    contribGo events (n + 1) c week acc =
      contribGo events n (c + 1) []
        (acc ++ [⟨padWeek (week ++ [mkDayCell events c]) (c + 1)⟩]) := by
  rw [contribGo, if_pos (Or.inl h7)]

theorem contribGo_step_last (events : List (Option Int)) (c : Int)
    (week : List DayCell) (acc : List ContribWeek) :
    contribGo events (0 + 1) c week acc =
      acc ++ [⟨padWeek (week ++ [mkDayCell events c]) (c + 1)⟩] := by
  conv_lhs => rw [contribGo]
  rw [if_pos (show (week ++ [mkDayCell events c]).length = 7 ∨ (0 : Nat) = 0 from Or.inr rfl)]
  rw [contribGo]

theorem contribGo_full_step (events : List (Option Int)) (n : Nat) (c : Int)
    (acc : List ContribWeek) :
    contribGo events (n + 8) c [] acc =
      contribGo events (n + 1) (c + 7) [] (acc ++ [fullWeek events c]) := by
  rw [show n + 8 = (n + 7) + 1 from rfl,
    contribGo_step_mid events (n + 7) c [] acc (by simp) (by omega)]
  rw [show n + 7 = (n + 6) + 1 from rfl,
    contribGo_step_mid events (n + 6) (c + 1) _ acc (by simp) (by omega)]
  rw [show n + 6 = (n + 5) + 1 from rfl,
    contribGo_step_mid events (n + 5) (c + 1 + 1) _ acc (by simp) (by omega)]
  rw [show n + 5 = (n + 4) + 1 from rfl,
    contribGo_step_mid events (n + 4) (c + 1 + 1 + 1) _ acc (by simp) (by omega)]
  rw [show n + 4 = (n + 3) + 1 from rfl,
    contribGo_step_mid events (n + 3) (c + 1 + 1 + 1 + 1) _ acc (by simp) (by omega)]
  rw [show n + 3 = (n + 2) + 1 from rfl,
    contribGo_step_mid events (n + 2) (c + 1 + 1 + 1 + 1 + 1) _ acc (by simp) (by omega)]
  rw [show n + 2 = (n + 1) + 1 from rfl,
    contribGo_step_close events (n + 1) (c + 1 + 1 + 1 + 1 + 1 + 1) _ acc (by simp)]
  have e2 : c + 1 + 1 = c + 2 := by ring
  have e3 : c + 2 + 1 = c + 3 := by ring
  have e4 : c + 3 + 1 = c + 4 := by ring
  have e5 : c + 4 + 1 = c + 5 := by ring
  have e6 : c + 5 + 1 = c + 6 := by ring
  have e7 : c + 6 + 1 = c + 7 := by ring
  rw [e2, e3, e4, e5, e6, e7]
  norm_num [padWeek, fullWeek]

theorem contribGo_last_two (events : List (Option Int)) (c : Int) (acc : List ContribWeek) :
    contribGo events 2 c [] acc = acc ++ [partialWeek events c] := by
  rw [show (2 : Nat) = (0 + 1) + 1 from rfl,
    contribGo_step_mid events (0 + 1) c [] acc (by simp) (by omega)]
  rw [contribGo_step_last events (c + 1) _ acc]
  have e2 : c + 1 + 1 = c + 2 := by ring
  simp only [List.nil_append, padWeek, partialWeek, List.length_cons, List.length_nil, e2]
  norm_num

theorem contribGo_main (events : List (Option Int)) :
    ∀ (k : Nat) (c : Int) (acc : List ContribWeek),
    contribGo events (7 * k + 2) c [] acc =
      acc ++ (List.range k).map (fun i : Nat => fullWeek events (c + 7 * (i : Int))) ++
        [partialWeek events (c + 7 * (k : Int))] := by
  intro k
  induction k with
  | zero =>
    intro c acc
    simpa using contribGo_last_two events c acc
  | succ k ih =>
    intro c acc
    rw [show 7 * (k + 1) + 2 = (7 * k + 1) + 8 by ring,
      contribGo_full_step events (7 * k + 1) c acc,
      show (7 * k + 1) + 1 = 7 * k + 2 by ring, ih (c + 7) (acc ++ [fullWeek events c])]
    rw [List.range_succ_eq_map]
    simp only [List.map_cons, List.map_map, List.append_assoc, List.cons_append,
      List.nil_append, List.singleton_append, Nat.cast_zero, mul_zero, add_zero]
    congr 2
    congr 1
    · apply List.map_congr_left
      intro i _
      simp only [Function.comp_apply]
      congr 1
      push_cast
      ring
    · congr 2
      push_cast
      ring

/-- C5 (amended): the builder yields a 53-week grid, not a fixed 52-week one:
52 full weeks of consecutive days starting at `today - 365`, followed by a
final partial week holding the cells of `today - 1` and `today` and five
zero padding cells that all carry the single date `today + 1` (the code
recomputes `current_date + 1 day` without advancing it, so the padding dates
do not progress). Every week holds exactly 7 cells; per `mkDayCell`, each
real cell's count is the number of events on its calendar day and its level
is the 4-bucket quantization `0, 1..3, 4..6, >= 7` of that count. -/
theorem get_contributions_grid (events : List (Option Int)) (today : Int) :
    (get_contributions events today).contribution_weeks =
      (List.range 52).map (fun i : Nat => fullWeek events (today - 365 + 7 * (i : Int))) ++
        [partialWeek events (today - 1)] ∧
    (get_contributions events today).contribution_weeks.length = 53 ∧
    ∀ w ∈ (get_contributions events today).contribution_weeks, w.days.length = 7 := by
  have h := contribGo_main events 52 (today - 365) []
  rw [show (7 * 52 + 2 : Nat) = 366 by norm_num] at h
  rw [show today - 365 + 7 * ((52 : Nat) : Int) = today - 1 by push_cast; ring] at h
  rw [List.nil_append] at h
  have hweeks : (get_contributions events today).contribution_weeks =
      (List.range 52).map (fun i : Nat => fullWeek events (today - 365 + 7 * (i : Int))) ++
        [partialWeek events (today - 1)] := by
    simpa [get_contributions] using h
  refine ⟨hweeks, ?_, ?_⟩
  · rw [hweeks]
    simp
  · intro w hw
    rw [hweeks] at hw
    rcases List.mem_append.1 hw with hw | hw
    · rcases List.mem_map.1 hw with ⟨i, _, rfl⟩
      simp [fullWeek]
    · rcases List.mem_singleton.1 hw with rfl
      simp [partialWeek]

set_option maxRecDepth 10000 in
/-- C5 counterexample: at `events = []`, `today = 0` the grid has 53 weeks,
not 52, and the final week's padding repeats the single date `1` (tomorrow)
instead of subsequent calendar dates. -/
theorem get_contributions_52_weeks_refuted :
    ¬ ((get_contributions [] 0).contribution_weeks.length = 52) ∧
    (get_contributions [] 0).contribution_weeks.length = 53 ∧
    ((get_contributions [] 0).contribution_weeks.getLast?.map
      (fun w => w.days.map (fun d => d.date))) = some [-1, 0, 1, 1, 1, 1, 1] := by
  refine ⟨by decide, by decide, by decide⟩

/-! ## C9: highlight reordering -/

theorem reorderStep_eq_map (u : Int) (s : List Highlight) (i : Nat) (hid : Option Int) :
    reorderStep u s i hid = s.map (cellStep u i hid) := by
  cases hid with
  | none =>
    rw [show cellStep u i none = fun h => h from rfl]
    simp [reorderStep]
  | some v =>
    simp only [reorderStep]
    by_cases hp : (s.any fun h => h.id == v && h.user == u) = true
    · rw [if_pos hp]
      apply List.map_congr_left
      intro h _
      rfl
    · rw [if_neg hp]
      have hall := List.any_eq_false.1 (Bool.eq_false_iff.2 hp)
      have : s.map (cellStep u i (some v)) = s.map id :=
        List.map_congr_left (fun h hh => by
          show cellStep u i (some v) h = h
          simp only [cellStep]
          rw [if_neg]
          simpa using hall h hh)
      rw [this, List.map_id]

theorem applyReorder_eq_map (u : Int) (hids : List (Option Int)) :
    ∀ (i : Nat) (s : List Highlight),
    applyReorder u i hids s = s.map (applyCells u i hids) := by
  induction hids with
  | nil => intro i s; simp [applyReorder, applyCells]
  | cons hid rest ih =>
    intro i s
    rw [applyReorder, reorderStep_eq_map, ih, List.map_map]
    rfl

theorem cellStep_id (u : Int) (i : Nat) (hid : Option Int) (h : Highlight) :
    (cellStep u i hid h).id = h.id ∧ (cellStep u i hid h).user = h.user := by
  cases hid with
  | none => exact ⟨rfl, rfl⟩
  | some v =>
    simp only [cellStep]
    by_cases hc : (h.id == v && h.user == u) = true
    · rw [if_pos hc]; exact ⟨rfl, rfl⟩
    · rw [if_neg hc]; exact ⟨rfl, rfl⟩

theorem applyCells_id_user (u : Int) (hids : List (Option Int)) :
    ∀ (i : Nat) (h : Highlight),
    (applyCells u i hids h).id = h.id ∧ (applyCells u i hids h).user = h.user := by
  induction hids with
  | nil => intro i h; exact ⟨rfl, rfl⟩
  | cons hid rest ih =>
    intro i h
    rw [applyCells]
    refine ⟨?_, ?_⟩
    · rw [(ih (i + 1) (cellStep u i hid h)).1, (cellStep_id u i hid h).1]
    · rw [(ih (i + 1) (cellStep u i hid h)).2, (cellStep_id u i hid h).2]

theorem applyCells_untouched (u : Int) (hids : List (Option Int)) :
    ∀ (i : Nat) (h : Highlight),
    (∀ v, some v ∈ hids → ¬(h.id = v ∧ h.user = u)) →
    applyCells u i hids h = h := by
  induction hids with
  | nil => intro i h _; rfl
  | cons hid rest ih =>
    intro i h hna
    rw [applyCells]
    have hcell : cellStep u i hid h = h := by
      cases hid with
      | none => rfl
      | some v =>
        simp only [cellStep]
        rw [if_neg]
        simp only [Bool.and_eq_true, beq_iff_eq, not_and]
        intro h1 h2
        exact hna v (List.mem_cons_self _ _) ⟨h1, h2⟩
    rw [hcell]
    exact ih (i + 1) h (fun v hv => hna v (List.mem_cons_of_mem _ hv))

theorem applyCells_sets (u : Int) (ids : List Int) (hnd : ids.Nodup) :
    ∀ (k : Nat) (hk : k < ids.length) (i : Nat) (h : Highlight),
    h.user = u → h.id = ids.get ⟨k, hk⟩ →
    applyCells u i (ids.map some) h = { h with order := i + k } := by
  induction ids with
  | nil => intro k hk; simp at hk
  | cons a rest ih =>
    intro k hk i h hu hid
    have hnotin : a ∉ rest := (List.nodup_cons.1 hnd).1
    rw [List.map_cons, applyCells]
    match k with
    | 0 =>
      have hida : h.id = a := hid
      have hcell : cellStep u i (some a) h = { h with order := i } := by
        simp only [cellStep]
        rw [if_pos (by simp [hida, hu])]
      rw [hcell]
      have huntouched : applyCells u (i + 1) (rest.map some) { h with order := i } =
          { h with order := i } := by
        apply applyCells_untouched
        intro v hv hc
        rcases List.mem_map.1 hv with ⟨w, hw, hwv⟩
        have hvrest : v ∈ rest := by
          cases Option.some.inj hwv
          exact hw
        have hav : a = v := hida ▸ hc.1
        exact hnotin (hav ▸ hvrest)
      rw [huntouched]
      norm_num
    | k + 1 =>
      have hidr : h.id = rest.get ⟨k, by simpa using Nat.lt_of_succ_lt_succ hk⟩ := hid
      have hne : h.id ≠ a := by
        intro hcontra
        apply hnotin
        rw [← hcontra, hidr]
        exact List.get_mem _ _ _
      have hcell : cellStep u i (some a) h = h := by
        simp only [cellStep]
        rw [if_neg (by simp [hne])]
      rw [hcell, ih (List.Nodup.of_cons hnd) k _ (i + 1) h hu hidr]
      congr 1
      omega

/-- C9 (amended): when the submitted list enumerates exactly the ids of the
user's highlights, with no duplicates and every id matching one of the
user's highlights, the reorder endpoint assigns the dense zero-based ranks
0, 1, 2, ... in the submitted sequence: the highlight submitted at position
`k` ends with order `k`, and every highlight of the user ends with order
equal to the index of its id in the submission, in particular below the
number of submitted ids. (Unmatched or unparsable entries are skipped while
the enumeration index advances, so arbitrary submissions can leave gaps.) -/
theorem reorder_highlights_dense (u : Int) (ids : List Int) (s : List Highlight)
    (hnd : ids.Nodup)
    (hcover : ∀ h ∈ s, h.user = u → h.id ∈ ids)
    (hex : ∀ n ∈ ids, ∃ h ∈ s, h.user = u ∧ h.id = n) :
    (∀ (k : Nat) (hk : k < ids.length),
      ∃ h ∈ reorder_highlights u (ids.map some) s,
        h.user = u ∧ h.id = ids.get ⟨k, hk⟩ ∧ h.order = k) ∧
    (∀ h ∈ reorder_highlights u (ids.map some) s, h.user = u →
      h.order = ids.indexOf h.id ∧ h.order < ids.length) := by
  constructor
  · intro k hk
    obtain ⟨h0, hh0, hu0, hid0⟩ := hex (ids.get ⟨k, hk⟩) (List.get_mem _ _ _)
    refine ⟨applyCells u 0 (ids.map some) h0, ?_, ?_, ?_, ?_⟩
    · rw [reorder_highlights, applyReorder_eq_map]
      exact List.mem_map_of_mem _ hh0
    · rw [(applyCells_id_user u (ids.map some) 0 h0).2, hu0]
    · rw [(applyCells_id_user u (ids.map some) 0 h0).1, hid0]
    · rw [applyCells_sets u ids hnd k hk 0 h0 hu0 hid0]
      simp
  · intro h' hmem hu'
    rw [reorder_highlights, applyReorder_eq_map] at hmem
    rcases List.mem_map.1 hmem with ⟨h0, hh0, rfl⟩
    have hu0 : h0.user = u := by
      rw [← (applyCells_id_user u (ids.map some) 0 h0).2]
      exact hu'
    have hidmem : h0.id ∈ ids := hcover h0 hh0 hu0
    have hklt : ids.indexOf h0.id < ids.length := List.indexOf_lt_length.2 hidmem
    have hget : ids.get ⟨ids.indexOf h0.id, hklt⟩ = h0.id := List.indexOf_get hklt
    rw [applyCells_sets u ids hnd (ids.indexOf h0.id) hklt 0 h0 hu0 hget.symm]
    constructor
    · simp
    · simpa using hklt

/-- C9 counterexample: a user with highlights `(id 1, order 0)` and
`(id 2, order 1)` submitting the list `[2]` ends with both highlights at
order 0 — not the dense ranks `0, 1` in any arrangement — because entries
absent from the submission keep their old order. -/
theorem reorder_highlights_dense_refuted :
    ¬ (((reorder_highlights 1 [some 2]
        [{ id := 1, user := 1, order := 0 }, { id := 2, user := 1, order := 1 }]).map
      (fun h => h.order)).Perm [0, 1]) ∧
    (reorder_highlights 1 [some 2]
        [{ id := 1, user := 1, order := 0 }, { id := 2, user := 1, order := 1 }]).map
      (fun h => h.order) = [0, 0] := by
  refine ⟨by decide, by decide⟩

theorem reorder_highlights_dense_witness :
    ([2, 1] : List Int).Nodup ∧
    (∃ h ∈ reorder_highlights 1 [some 2, some 1]
        [{ id := 1, user := 1, order := 5 }, { id := 2, user := 1, order := 7 }],
      h.user = 1 ∧ h.id = 2 ∧ h.order = 0) := by
  constructor
  · decide
  · exact (reorder_highlights_dense 1 [2, 1]
      [{ id := 1, user := 1, order := 5 }, { id := 2, user := 1, order := 7 }]
      (by decide) (by decide) (by decide)).1 0 (by decide)

/-! ## C2, C6, C8: the derived scores and project diversity -/

theorem countRecent_ok (now : Int) (rs : List RepoPayload)
    (hgood : ∀ r ∈ rs, r.updated_at ≠ some none) :
    countRecent now rs = .ok (rs.countP (isRecent now)) := by
  induction rs with
  | nil => simp [countRecent]
  | cons r rest ih =>
    have hr := hgood r (List.mem_cons_self _ _)
    have hrest := ih (fun x hx => hgood x (List.mem_cons_of_mem _ hx))
    rw [countRecent, hrest]
    match hu : r.updated_at with
    | none =>
      simp [recentCheck, hu, List.countP_cons, isRecent, Except.bind]
    | some none => exact absurd hu hr
    | some (some t) =>
      simp only [recentCheck, hu, List.countP_cons, isRecent, Except.bind]

theorem countRecent_err (now : Int) (rs : List RepoPayload)
    (hbad : ∃ r ∈ rs, r.updated_at = some none) :
    ∃ e, countRecent now rs = .error e := by
  induction rs with
  | nil => simp at hbad
  | cons r rest ih =>
    match hu : r.updated_at with
    | some none =>
      exact ⟨.valueError, by rw [countRecent]; simp [recentCheck, hu, Except.bind]⟩
    | none =>
      have : ∃ x ∈ rest, x.updated_at = some none := by
        rcases hbad with ⟨x, hx, hxe⟩
        rcases List.mem_cons.1 hx with rfl | hx
        · exact absurd hu (by simp [hxe])
        · exact ⟨x, hx, hxe⟩
      rcases ih this with ⟨e, he⟩
      refine ⟨e, ?_⟩
      rw [countRecent]
      simp [recentCheck, hu, he, Except.bind]
    | some (some t) =>
      have : ∃ x ∈ rest, x.updated_at = some none := by
        rcases hbad with ⟨x, hx, hxe⟩
        rcases List.mem_cons.1 hx with rfl | hx
        · exact absurd hu (by simp [hxe])
        · exact ⟨x, hx, hxe⟩
      rcases ih this with ⟨e, he⟩
      refine ⟨e, ?_⟩
      rw [countRecent]
      simp [recentCheck, hu, he, Except.bind]

theorem public_viewer_stats_inv (now : Int) (created : Option (Option Int))
    (rs : List RepoPayload) (st : UserStatsView)
    (h : public_viewer_stats now created rs = .ok st) :
    ∃ n, countRecent now rs = .ok n ∧
      st = { total_stars_received := (rs.map (fun r => r.stargazers_count.getD 0)).sum
             total_forks_received := (rs.map (fun r => r.forks_count.getD 0)).sum
             repository_count := rs.length
             languages_count := (languagesHist rs).length
             recent_activity := n
             project_diversity := projectDiversity rs
             collaboration_score := min 100 (((rs.map (fun r => r.forks_count.getD 0)).sum * 2 +
               ((rs.countP (fun r => decide (0 < r.forks_count.getD 0))) : Int) * 5) * 2)
             innovation_score := min 100 (pyHalf
               ((rs.map (fun r => r.stargazers_count.getD 0)).sum +
                ((rs.countP (fun r => decide (0 < r.stargazers_count.getD 0))) : Int) * 2 +
                ((languagesHist rs).length : Int) * 5 + ((projectTypes rs).length : Int) * 10))
             consistency_score := min 100 ((n : Int) * 10)
             years_experience := yearsExperience now created } := by
  unfold public_viewer_stats at h
  cases hc : countRecent now rs with
  | error e => rw [hc] at h; simp at h
  | ok n =>
    rw [hc] at h
    simp only [Except.ok.injEq] at h
    exact ⟨n, rfl, h.symm⟩

theorem histAdd_keys (h : List (String × Nat)) (k : String) :
    (histAdd h k).map Prod.fst =
      if k ∈ h.map Prod.fst then h.map Prod.fst else h.map Prod.fst ++ [k] := by
  by_cases hmem : k ∈ h.map Prod.fst
  · rw [if_pos hmem]
    have hany : (h.any fun p => p.1 == k) = true := by
      rcases List.mem_map.1 hmem with ⟨p, hp, rfl⟩
      exact List.any_eq_true.2 ⟨p, hp, by simp⟩
    rw [histAdd, if_pos hany, List.map_map]
    apply List.map_congr_left
    intro p _
    simp only [Function.comp_apply]
    split <;> rfl
  · rw [if_neg hmem, histAdd, if_neg, List.map_append]
    · rfl
    · intro hany
      rcases List.any_eq_true.1 hany with ⟨p, hp, hpk⟩
      exact hmem (List.mem_map.2 ⟨p, hp, beq_iff_eq.1 hpk⟩)

theorem truthyLangs_cons (r : RepoPayload) (rest : List RepoPayload) :
    truthyLangs (r :: rest) = truthyLangs [r] ++ truthyLangs rest := by
  have : r :: rest = [r] ++ rest := rfl
  rw [this, truthyLangs, List.filterMap_append]
  rfl

theorem langStep_keys_mem (acc : List (String × Nat)) (r : RepoPayload) (x : String) :
    x ∈ (langStep acc r).map Prod.fst ↔
      x ∈ acc.map Prod.fst ∨ x ∈ truthyLangs [r] := by
  rcases hl : r.language with - | l
  · simp [langStep, hl, truthyLangs]
  · by_cases hle : l = ""
    · simp [langStep, hl, hle, truthyLangs]
    · have hlang : langStep acc r = histAdd acc l := by
        simp [langStep, hl, hle]
      have htl : truthyLangs [r] = [l] := by
        simp [truthyLangs, hl, hle]
      rw [hlang, htl, histAdd_keys]
      by_cases hmem : l ∈ acc.map Prod.fst
      · rw [if_pos hmem]
        constructor
        · exact Or.inl
        · rintro (hx | hx)
          · exact hx
          · rcases List.mem_singleton.1 hx with rfl
            exact hmem
      · rw [if_neg hmem]
        simp
  
theorem langStep_keys_nodup (acc : List (String × Nat)) (r : RepoPayload)
    (hacc : (acc.map Prod.fst).Nodup) :
    ((langStep acc r).map Prod.fst).Nodup := by
  rcases hl : r.language with - | l
  · simpa [langStep, hl] using hacc
  · by_cases hle : l = ""
    · simpa [langStep, hl, hle] using hacc
    · have hlang : langStep acc r = histAdd acc l := by
        simp [langStep, hl, hle]
      rw [hlang, histAdd_keys]
      by_cases hmem : l ∈ acc.map Prod.fst
      · rwa [if_pos hmem]
      · rw [if_neg hmem]
        exact List.Nodup.append hacc (List.nodup_singleton _)
          (by simpa [List.disjoint_singleton] using hmem)

theorem langFold_keys (rs : List RepoPayload) :
    ∀ acc : List (String × Nat), (acc.map Prod.fst).Nodup →
      ((rs.foldl langStep acc).map Prod.fst).Nodup ∧
      (∀ x, x ∈ (rs.foldl langStep acc).map Prod.fst ↔
        x ∈ acc.map Prod.fst ∨ x ∈ truthyLangs rs) := by
  induction rs with
  | nil =>
    intro acc hacc
    refine ⟨hacc, fun x => ?_⟩
    simp [truthyLangs]
  | cons r rest ih =>
    intro acc hacc
    obtain ⟨hnd, hmem⟩ := ih (langStep acc r) (langStep_keys_nodup acc r hacc)
    rw [List.foldl_cons]
    refine ⟨hnd, fun x => ?_⟩
    rw [hmem x, truthyLangs_cons r rest, List.mem_append, langStep_keys_mem]
    exact or_assoc

theorem languagesHist_length (rs : List RepoPayload) :
    (languagesHist rs).length = (truthyLangs rs).dedup.length := by
  obtain ⟨hnd, hmem⟩ := langFold_keys rs [] (by simp)
  have h1 : (languagesHist rs).length = ((languagesHist rs).map Prod.fst).length :=
    (List.length_map _ _).symm
  rw [h1]
  rw [show (languagesHist rs).map Prod.fst = (rs.foldl langStep []).map Prod.fst from rfl]
  rw [← List.toFinset_card_of_nodup hnd, ← List.toFinset_card_of_nodup (List.nodup_dedup _)]
  congr 1
  ext x
  simp only [List.mem_toFinset, List.mem_dedup]
  rw [hmem x]
  simp


theorem addTag_mem (acc : List String) (t z : String) :
    z ∈ addTag acc t ↔ z ∈ acc ∨ z = t := by
  rw [addTag]
  by_cases ht : t ∈ acc
  · rw [if_pos ht]
    constructor
    · exact Or.inl
    · rintro (hz | rfl)
      · exact hz
      · exact ht
  · rw [if_neg ht]
    simp

theorem addTag_nodup (acc : List String) (t : String) (h : acc.Nodup) :
    (addTag acc t).Nodup := by
  rw [addTag]
  by_cases ht : t ∈ acc
  · rwa [if_pos ht]
  · rw [if_neg ht]
    exact List.Nodup.append h (List.nodup_singleton _)
      (by simpa [List.disjoint_singleton] using ht)

theorem tagFold_mem (tags : List String) :
    ∀ (acc : List String) (z : String),
      z ∈ tags.foldl addTag acc ↔ z ∈ acc ∨ z ∈ tags := by
  induction tags with
  | nil => intro acc z; simp
  | cons t ts ih =>
    intro acc z
    rw [List.foldl_cons, ih, addTag_mem]
    simp only [List.mem_cons]
    tauto

theorem tagFold_nodup (tags : List String) :
    ∀ acc : List String, acc.Nodup → (tags.foldl addTag acc).Nodup := by
  induction tags with
  | nil => intro acc h; exact h
  | cons t ts ih =>
    intro acc h
    exact ih _ (addTag_nodup acc t h)

theorem projectTypes_mem (rs : List RepoPayload) :
    ∀ (acc : List String) (z : String),
      z ∈ rs.foldl (fun acc r => (repoTags r).foldl addTag acc) acc ↔
        z ∈ acc ∨ ∃ r ∈ rs, z ∈ repoTags r := by
  induction rs with
  | nil => intro acc z; simp
  | cons r rest ih =>
    intro acc z
    rw [List.foldl_cons, ih, tagFold_mem]
    simp only [List.mem_cons]
    constructor
    · rintro ((hz | hz) | ⟨x, hx, hz⟩)
      · exact Or.inl hz
      · exact Or.inr ⟨r, Or.inl rfl, hz⟩
      · exact Or.inr ⟨x, Or.inr hx, hz⟩
    · rintro (hz | ⟨x, rfl | hx, hz⟩)
      · exact Or.inl (Or.inl hz)
      · exact Or.inl (Or.inr hz)
      · exact Or.inr ⟨x, hx, hz⟩

theorem ptFold_nodup (rs : List RepoPayload) :
    ∀ acc : List String, acc.Nodup →
      (rs.foldl (fun acc r => (repoTags r).foldl addTag acc) acc).Nodup := by
  induction rs with
  | nil => intro acc h; exact h
  | cons r rest ih =>
    intro acc h
    exact ih _ (tagFold_nodup (repoTags r) acc h)

theorem projectTypes_nodup (rs : List RepoPayload) : (projectTypes rs).Nodup :=
  ptFold_nodup rs [] (by simp)

theorem mem_repoTags (r : RepoPayload) (t : String) :
    t ∈ repoTags r ↔
      ∃ p ∈ keywordTable, p.1 = t ∧ ∃ kw ∈ p.2,
        (substrMatch kw (pyLower (pyOrStr r.name "")) ||
         substrMatch kw (pyLower (pyOrStr r.description ""))) = true := by
  simp only [repoTags, List.mem_map, List.mem_filter, List.any_eq_true]
  constructor
  · rintro ⟨p, ⟨hp, kw, hkw, hm⟩, rfl⟩
    exact ⟨p, hp, rfl, kw, hkw, hm⟩
  · rintro ⟨p, hp, rfl, kw, hkw, hm⟩
    exact ⟨p, ⟨hp, kw, hkw, hm⟩, rfl⟩

theorem charListLe_total : ∀ as bs : List Char, charListLe as bs || charListLe bs as := by
  intro as
  induction as with
  | nil => intro bs; simp [charListLe]
  | cons c cs ih =>
    intro bs
    cases bs with
    | nil => simp [charListLe]
    | cons d ds =>
      rw [charListLe, charListLe]
      by_cases h1 : c.toNat < d.toNat
      · rw [if_pos h1]
        simp
      · rw [if_neg h1]
        by_cases h2 : d.toNat < c.toNat
        · rw [if_pos h2, if_pos h2]
          simp
        · rw [if_neg h2, if_neg h2, if_neg h1]
          exact ih ds

theorem charListLe_trans : ∀ as bs cs : List Char,
    charListLe as bs → charListLe bs cs → charListLe as cs := by
  intro as
  induction as with
  | nil => intro bs cs h1 h2; rfl
  | cons a as2 ih =>
    intro bs cs h1 h2
    cases bs with
    | nil => simp [charListLe] at h1
    | cons b bs2 =>
      cases cs with
      | nil => simp [charListLe] at h2
      | cons c cs2 =>
        rw [charListLe] at h1 h2 ⊢
        by_cases hab : a.toNat < b.toNat
        · rw [if_pos hab] at h1
          by_cases hbc : b.toNat < c.toNat
          · rw [if_pos (by omega : a.toNat < c.toNat)]
          · rw [if_neg hbc] at h2
            by_cases hcb : c.toNat < b.toNat
            · rw [if_pos hcb] at h2
              exact absurd h2 (by simp)
            · rw [if_pos (by omega : a.toNat < c.toNat)]
        · rw [if_neg hab] at h1
          by_cases hba : b.toNat < a.toNat
          · rw [if_pos hba] at h1
            exact absurd h1 (by simp)
          · rw [if_neg hba] at h1
            by_cases hbc : b.toNat < c.toNat
            · rw [if_pos (by omega : a.toNat < c.toNat)]
            · rw [if_neg hbc] at h2
              by_cases hcb : c.toNat < b.toNat
              · rw [if_pos hcb] at h2
                exact absurd h2 (by simp)
              · rw [if_neg hcb] at h2
                rw [if_neg (by omega : ¬ a.toNat < c.toNat),
                  if_neg (by omega : ¬ c.toNat < a.toNat)]
                exact ih bs2 cs2 h1 h2

theorem strLe_total (a b : String) : strLe a b || strLe b a :=
  charListLe_total a.toList b.toList

theorem strLe_trans (a b c : String) (h1 : strLe a b) (h2 : strLe b c) : strLe a c :=
  charListLe_trans a.toList b.toList c.toList h1 h2

/-- C6: the displayed project diversity is sorted in code-point order and
duplicate-free, and a tag appears in it exactly when some repository's
lowercased name or description contains one of that tag's keywords from the
fixed table as a substring. -/
theorem project_diversity_spec (now : Int) (created : Option (Option Int))
    (rs : List RepoPayload) (st : UserStatsView)
    (h : public_viewer_stats now created rs = .ok st) :
    st.project_diversity.Pairwise (fun a b => strLe a b = true) ∧
    st.project_diversity.Nodup ∧
    ∀ t, t ∈ st.project_diversity ↔
      ∃ r ∈ rs, ∃ p ∈ keywordTable, p.1 = t ∧ ∃ kw ∈ p.2,
        (substrMatch kw (pyLower (pyOrStr r.name "")) ||
         substrMatch kw (pyLower (pyOrStr r.description ""))) = true := by
  obtain ⟨n, -, rfl⟩ := public_viewer_stats_inv now created rs st h
  refine ⟨?_, ?_, ?_⟩
  · exact sortBy_pairwise strLe strLe_total strLe_trans _
  · exact ((sortBy_perm strLe _).nodup_iff).2 (projectTypes_nodup rs)
  · intro t
    show t ∈ sortBy strLe (projectTypes rs) ↔ _
    rw [sortBy_mem, projectTypes, projectTypes_mem]
    simp only [List.not_mem_nil, false_or]
    constructor
    · rintro ⟨r, hr, ht⟩
      exact ⟨r, hr, (mem_repoTags r t).1 ht⟩
    · rintro ⟨r, hr, ht⟩
      exact ⟨r, hr, (mem_repoTags r t).2 ht⟩

theorem project_diversity_spec_witness :
    ∃ st, public_viewer_stats 0 none [{ name := some "My-React-App" }] = .ok st ∧
      (st.project_diversity = ["Frontend"] ∧
        ∀ t, t ∈ st.project_diversity ↔
          ∃ r ∈ [({ name := some "My-React-App" } : RepoPayload)],
            ∃ p ∈ keywordTable, p.1 = t ∧ ∃ kw ∈ p.2,
              (substrMatch kw (pyLower (pyOrStr r.name "")) ||
               substrMatch kw (pyLower (pyOrStr r.description ""))) = true) := by
  have h : public_viewer_stats 0 none [{ name := some "My-React-App" }] =
      .ok { total_stars_received := 0, total_forks_received := 0, repository_count := 1,
            languages_count := 0, recent_activity := 0,
            project_diversity := ["Frontend"],
            collaboration_score := 0, innovation_score := 5, consistency_score := 0,
            years_experience := 1 } := by rfl
  refine ⟨_, h, rfl, (project_diversity_spec 0 none _ _ h).2.2⟩

/-- C2: under non-negative star/fork counts (and parseable timestamps, which
the surrounding view needs to finish at all), the three derived scores are
exactly `collaboration = min(100, (forked_repo_count*5 + total_forks*2)*2)`,
`innovation = min(100, floor((total_stars + starred_repo_count*2 +
distinct_language_count*5 + project_type_count*10) * 0.5))` and
`consistency = min(100, recent_repo_count*10)`; each lies in `[0, 100]`, and
all three are 0 for the empty repository list. -/
theorem derived_scores_spec (now : Int) (created : Option (Option Int))
    (rs : List RepoPayload)
    (hnn : ∀ r ∈ rs, 0 ≤ r.stargazers_count.getD 0 ∧ 0 ≤ r.forks_count.getD 0)
    (hgood : ∀ r ∈ rs, r.updated_at ≠ some none) :
    ∃ st, public_viewer_stats now created rs = .ok st ∧
      st.collaboration_score =
        min 100 (((rs.countP (fun r => decide (0 < r.forks_count.getD 0)) : Int) * 5 +
          (rs.map (fun r => r.forks_count.getD 0)).sum * 2) * 2) ∧
      st.innovation_score =
        min 100 (Int.fdiv ((rs.map (fun r => r.stargazers_count.getD 0)).sum +
          (rs.countP (fun r => decide (0 < r.stargazers_count.getD 0)) : Int) * 2 +
          ((truthyLangs rs).dedup.length : Int) * 5 +
          ((projectTypes rs).length : Int) * 10) 2) ∧
      st.consistency_score = min 100 ((rs.countP (isRecent now) : Int) * 10) ∧
      (0 ≤ st.collaboration_score ∧ st.collaboration_score ≤ 100) ∧
      (0 ≤ st.innovation_score ∧ st.innovation_score ≤ 100) ∧
      (0 ≤ st.consistency_score ∧ st.consistency_score ≤ 100) ∧
      (rs = [] → st.collaboration_score = 0 ∧ st.innovation_score = 0 ∧
        st.consistency_score = 0) := by
  have hok := countRecent_ok now rs hgood
  have hstars : 0 ≤ (rs.map (fun r => r.stargazers_count.getD 0)).sum := by
    apply List.sum_nonneg
    intro x hx
    rcases List.mem_map.1 hx with ⟨r, hr, rfl⟩
    exact (hnn r hr).1
  have hforks : 0 ≤ (rs.map (fun r => r.forks_count.getD 0)).sum := by
    apply List.sum_nonneg
    intro x hx
    rcases List.mem_map.1 hx with ⟨r, hr, rfl⟩
    exact (hnn r hr).2
  have hbase : 0 ≤ (rs.map (fun r => r.stargazers_count.getD 0)).sum +
      (rs.countP (fun r => decide (0 < r.stargazers_count.getD 0)) : Int) * 2 +
      ((languagesHist rs).length : Int) * 5 + ((projectTypes rs).length : Int) * 10 := by
    have h1 : (0 : Int) ≤ (rs.countP (fun r => decide (0 < r.stargazers_count.getD 0)) : Int) :=
      Int.natCast_nonneg _
    have h2 : (0 : Int) ≤ ((languagesHist rs).length : Int) := Int.natCast_nonneg _
    have h3 : (0 : Int) ≤ ((projectTypes rs).length : Int) := Int.natCast_nonneg _
    omega
  obtain ⟨st, hst⟩ : ∃ st, public_viewer_stats now created rs = .ok st := by
    unfold public_viewer_stats
    rw [hok]
    exact ⟨_, rfl⟩
  obtain ⟨n, hn, rfl⟩ := public_viewer_stats_inv now created rs st hst
  have hnval : n = rs.countP (isRecent now) := Except.ok.inj (hn.symm.trans hok)
  subst hnval
  refine ⟨_, hst, ?_, ?_, rfl, ?_, ?_, ?_, ?_⟩
  · show min 100 _ = min 100 _
    congr 1
    ring
  · show min 100 (pyHalf _) = min 100 _
    rw [languagesHist_length] at hbase ⊢
    rw [pyHalf, ← Int.fdiv_eq_tdiv hbase (by norm_num)]
  · constructor
    · apply le_min (by norm_num)
      have h1 : (0 : Int) ≤ (rs.countP (fun r => decide (0 < r.forks_count.getD 0)) : Int) :=
        Int.natCast_nonneg _
      omega
    · exact min_le_left _ _
  · constructor
    · apply le_min (by norm_num)
      exact Int.tdiv_nonneg hbase (by norm_num)
    · exact min_le_left _ _
  · constructor
    · apply le_min (by norm_num)
      have h1 : (0 : Int) ≤ (rs.countP (isRecent now) : Int) := Int.natCast_nonneg _
      omega
    · exact min_le_left _ _
  · rintro rfl
    refine ⟨?_, ?_, ?_⟩ <;> norm_num [languagesHist, projectTypes, pyHalf, truthyLangs]

theorem derived_scores_spec_witness :
    (∀ r ∈ [({ stargazers_count := some 100, forks_count := some 10,
               updated_at := some (some 0) } : RepoPayload),
            { stargazers_count := some 0, forks_count := some 0 }],
      0 ≤ r.stargazers_count.getD 0 ∧ 0 ≤ r.forks_count.getD 0) ∧
    ∃ st, public_viewer_stats 0 none
        [{ stargazers_count := some 100, forks_count := some 10,
           updated_at := some (some 0) },
         { stargazers_count := some 0, forks_count := some 0 }] = .ok st ∧
      st.consistency_score =
        min 100 (([({ stargazers_count := some 100, forks_count := some 10,
                      updated_at := some (some 0) } : RepoPayload),
                   { stargazers_count := some 0, forks_count := some 0 }].countP
          (isRecent 0) : Int) * 10) := by
  constructor
  · decide
  · obtain ⟨st, h1, -, -, h4, -⟩ :=
      derived_scores_spec 0 none
        [{ stargazers_count := some 100, forks_count := some 10,
           updated_at := some (some 0) },
         { stargazers_count := some 0, forks_count := some 0 }]
        (by decide) (by decide)
    exact ⟨st, h1, h4⟩

/-- C8 (code-bug evidence): the recent-activity computation of
`public_viewer` parses `updated_at` with no `try` around it, so a repository
whose `updated_at` is a truthy string that `datetime.fromisoformat` rejects
raises `ValueError` out of the aggregation — while, as the second conjunct
shows, a repository record missing `stargazers_count` (indeed missing every
field) does not raise and contributes 0 to every total. -/
theorem public_viewer_stats_raises_on_unparsable_date :
    public_viewer_stats 0 none [{ updated_at := some none }] = .error .valueError ∧
    public_viewer_stats 0 none [{}] =
      .ok { total_stars_received := 0, total_forks_received := 0, repository_count := 1,
            languages_count := 0, recent_activity := 0, project_diversity := [],
            collaboration_score := 0, innovation_score := 0, consistency_score := 0,
            years_experience := 1 } := by
  exact ⟨rfl, rfl⟩

/-! ## C3, C7, C10: the ingest pipeline

Generic theory of batches of update-or-create operations, leading to the
idempotence of a batch: applying the same batch twice equals applying it
once. -/

theorem kappa_lastOv {α K : Type} [DecidableEq K] (κ : α → K) (ops : List α) :
    ∀ r, κ (lastOv κ ops r) = κ r := by
  induction ops with
  | nil => intro r; rfl
  | cons v rest ih =>
    intro r
    show κ (lastOv κ rest (if κ v = κ r then v else r)) = κ r
    rw [ih]
    split
    · next h => exact h
    · rfl

theorem lastOv_cons {α K : Type} [DecidableEq K] (κ : α → K) (v : α) (ops : List α)
    (r : α) : lastOv κ (v :: ops) r = lastOv κ ops (if κ v = κ r then v else r) := rfl

theorem freshOps_congr {α K : Type} [DecidableEq K] (κ : α → K) (ops : List α) :
    ∀ ks ks' : List K, (∀ k, k ∈ ks ↔ k ∈ ks') →
      freshOps κ ops ks = freshOps κ ops ks' := by
  induction ops with
  | nil => intro ks ks' _; rfl
  | cons v rest ih =>
    intro ks ks' hiff
    rw [freshOps, freshOps]
    by_cases hv : κ v ∈ ks
    · rw [if_pos hv, if_pos ((hiff _).1 hv)]
      exact ih ks ks' hiff
    · rw [if_neg hv, if_neg (fun hc => hv ((hiff _).2 hc))]
      congr 1
      apply ih
      intro k
      simp only [List.mem_cons]
      exact or_congr Iff.rfl (hiff k)

theorem mem_freshOps_key {α K : Type} [DecidableEq K] (κ : α → K) (ops : List α) :
    ∀ (ks : List K) (x : α), x ∈ freshOps κ ops ks → κ x ∉ ks := by
  induction ops with
  | nil => intro ks x hx; simp [freshOps] at hx
  | cons v rest ih =>
    intro ks x hx
    rw [freshOps] at hx
    by_cases hv : κ v ∈ ks
    · rw [if_pos hv] at hx
      exact ih ks x hx
    · rw [if_neg hv] at hx
      rcases List.mem_cons.1 hx with rfl | hx
      · rw [kappa_lastOv κ rest]
        exact hv
      · intro hc
        exact ih (κ v :: ks) x hx (List.mem_cons_of_mem _ hc)

theorem freshOps_nil {α K : Type} [DecidableEq K] (κ : α → K) (ops : List α) :
    ∀ ks : List K, (∀ v ∈ ops, κ v ∈ ks) → freshOps κ ops ks = [] := by
  induction ops with
  | nil => intro ks _; rfl
  | cons v rest ih =>
    intro ks hall
    rw [freshOps, if_pos (hall v (List.mem_cons_self _ _))]
    exact ih ks (fun w hw => hall w (List.mem_cons_of_mem _ hw))

theorem lastOv_idem {α K : Type} [DecidableEq K] (κ : α → K) (ops : List α) :
    ∀ r, lastOv κ ops (lastOv κ ops r) = lastOv κ ops r := by
  induction ops with
  | nil => intro r; rfl
  | cons v rest ih =>
    intro r
    by_cases hvr : κ v = κ r
    · have hyv : lastOv κ (v :: rest) r = lastOv κ rest v := by
        rw [lastOv_cons, if_pos hvr]
      rw [hyv, lastOv_cons κ v rest (lastOv κ rest v),
        if_pos ((kappa_lastOv κ rest v).symm)]
    · have hyr : lastOv κ (v :: rest) r = lastOv κ rest r := by
        rw [lastOv_cons, if_neg hvr]
      rw [hyr, lastOv_cons κ v rest (lastOv κ rest r),
        if_neg (fun hc => hvr (hc.trans (kappa_lastOv κ rest r)))]
      exact ih r

theorem lastOv_fresh {α K : Type} [DecidableEq K] (κ : α → K) (ops : List α) :
    ∀ (ks : List K) (x : α), x ∈ freshOps κ ops ks → lastOv κ ops x = x := by
  induction ops with
  | nil => intro ks x _; rfl
  | cons v rest ih =>
    intro ks x hx
    rw [freshOps] at hx
    by_cases hv : κ v ∈ ks
    · rw [if_pos hv] at hx
      have hknotin := mem_freshOps_key κ rest ks x hx
      rw [lastOv_cons, if_neg (fun hc : κ v = κ x => hknotin (hc ▸ hv))]
      exact ih ks x hx
    · rw [if_neg hv] at hx
      rcases List.mem_cons.1 hx with rfl | hx
      · rw [lastOv_cons, if_pos ((kappa_lastOv κ rest v).symm)]
      · have hknotin := mem_freshOps_key κ rest (κ v :: ks) x hx
        rw [lastOv_cons,
          if_neg (fun hc : κ v = κ x => hknotin (hc ▸ List.mem_cons_self _ _))]
        exact ih (κ v :: ks) x hx

theorem any_key_iff {α K : Type} [DecidableEq K] (κ : α → K) (v : α) (l : List α) :
    (l.any fun r => decide (κ r = κ v)) = true ↔ κ v ∈ l.map κ := by
  rw [List.any_eq_true]
  constructor
  · rintro ⟨r, hr, hrk⟩
    exact List.mem_map.2 ⟨r, hr, of_decide_eq_true hrk⟩
  · rintro hm
    rcases List.mem_map.1 hm with ⟨r, hr, hrk⟩
    exact ⟨r, hr, decide_eq_true hrk⟩

theorem keys_replace {α K : Type} [DecidableEq K] (κ : α → K) (v : α) (l : List α) :
    (l.map (fun r => if κ r = κ v then v else r)).map κ = l.map κ := by
  rw [List.map_map]
  apply List.map_congr_left
  intro r _
  simp only [Function.comp_apply]
  split
  · next h => exact h.symm
  · rfl

theorem runUpserts_eq {α K : Type} [DecidableEq K] (κ : α → K) (ops : List α) :
    ∀ l : List α,
      runUpserts κ ops l = l.map (lastOv κ ops) ++ freshOps κ ops (l.map κ) := by
  induction ops with
  | nil =>
    intro l
    show l = l.map (lastOv κ []) ++ freshOps κ [] (l.map κ)
    rw [freshOps, List.append_nil]
    conv_lhs => rw [← List.map_id l]
    apply List.map_congr_left
    intro r _
    rfl
  | cons v rest ih =>
    intro l
    show runUpserts κ rest (upsertBy κ v l) = _
    rw [upsertBy]
    by_cases hany : (l.any fun r => decide (κ r = κ v)) = true
    · rw [if_pos hany, ih, keys_replace, List.map_map]
      have hmem : κ v ∈ l.map κ := (any_key_iff κ v l).1 hany
      rw [freshOps, if_pos hmem]
      congr 1
      apply List.map_congr_left
      intro r _
      simp only [Function.comp_apply]
      rw [lastOv_cons]
      congr 1
      by_cases hrv : κ r = κ v
      · rw [if_pos hrv, if_pos hrv.symm]
      · rw [if_neg hrv, if_neg (fun hc => hrv hc.symm)]
    · rw [if_neg hany, ih, List.map_append, List.map_append]
      have hnmem : κ v ∉ l.map κ := fun hc => hany ((any_key_iff κ v l).2 hc)
      rw [freshOps, if_neg hnmem]
      have hne : ∀ r ∈ l, κ r ≠ κ v := by
        intro r hr hc
        exact hnmem (hc ▸ List.mem_map_of_mem κ hr)
      have hmapeq : l.map (lastOv κ (v :: rest)) = l.map (lastOv κ rest) := by
        apply List.map_congr_left
        intro r hr
        rw [lastOv_cons, if_neg (fun hc : κ v = κ r => hne r hr hc.symm)]
      have hfr : freshOps κ rest (l.map κ ++ [v].map κ) =
          freshOps κ rest (κ v :: l.map κ) := by
        apply freshOps_congr
        intro k
        simp only [List.map_cons, List.map_nil, List.mem_append, List.mem_singleton,
          List.mem_cons]
        tauto
      rw [hmapeq, hfr]
      simp only [List.map_cons, List.map_nil, List.append_assoc, List.singleton_append]

theorem mem_keys_freshOps {α K : Type} [DecidableEq K] (κ : α → K) (ops : List α) :
    ∀ (ks : List K) (v : α), v ∈ ops → κ v ∉ ks →
      κ v ∈ (freshOps κ ops ks).map κ := by
  induction ops with
  | nil => intro ks v hv; simp at hv
  | cons w rest ih =>
    intro ks v hv hnk
    rw [freshOps]
    by_cases hw : κ w ∈ ks
    · rw [if_pos hw]
      rcases List.mem_cons.1 hv with rfl | hv
      · exact absurd hw hnk
      · exact ih ks v hv hnk
    · rw [if_neg hw]
      by_cases hvw : κ v = κ w
      · rw [List.map_cons, kappa_lastOv κ rest]
        exact List.mem_cons.2 (Or.inl hvw)
      · rcases List.mem_cons.1 hv with rfl | hv
        · exact absurd rfl hvw
        · rw [List.map_cons]
          refine List.mem_cons.2 (Or.inr ?_)
          exact ih (κ w :: ks) v hv (by
            intro hc
            rcases List.mem_cons.1 hc with hc | hc
            · exact hvw hc
            · exact hnk hc)

theorem mem_keys_runUpserts {α K : Type} [DecidableEq K] (κ : α → K) (ops : List α)
    (l : List α) (v : α) (hv : v ∈ ops) :
    κ v ∈ (runUpserts κ ops l).map κ := by
  rw [runUpserts_eq, List.map_append, List.map_map]
  by_cases hk : κ v ∈ l.map κ
  · refine List.mem_append.2 (Or.inl ?_)
    rcases List.mem_map.1 hk with ⟨r, hr, hrk⟩
    refine List.mem_map.2 ⟨r, hr, ?_⟩
    simp only [Function.comp_apply]
    rw [kappa_lastOv κ ops]
    exact hrk
  · exact List.mem_append.2 (Or.inr (mem_keys_freshOps κ ops (l.map κ) v hv hk))

theorem runUpserts_idem {α K : Type} [DecidableEq K] (κ : α → K) (ops : List α)
    (l : List α) :
    runUpserts κ ops (runUpserts κ ops l) = runUpserts κ ops l := by
  conv_lhs => rw [runUpserts_eq]
  have hfresh0 : freshOps κ ops ((runUpserts κ ops l).map κ) = [] := by
    apply freshOps_nil
    intro v hv
    exact mem_keys_runUpserts κ ops l v hv
  rw [hfresh0, List.append_nil]
  conv_lhs => rw [runUpserts_eq κ ops l]
  rw [List.map_append, List.map_map]
  have hmap1 : l.map (lastOv κ ops ∘ lastOv κ ops) = l.map (lastOv κ ops) := by
    apply List.map_congr_left
    intro r _
    simp only [Function.comp_apply]
    exact lastOv_idem κ ops r
  have hmap2 : (freshOps κ ops (l.map κ)).map (lastOv κ ops) =
      freshOps κ ops (l.map κ) := by
    conv_rhs => rw [← List.map_id (freshOps κ ops (l.map κ))]
    apply List.map_congr_left
    intro x hx
    exact lastOv_fresh κ ops (l.map κ) x hx
  rw [hmap1, hmap2, ← runUpserts_eq]

theorem filter_key_length_le_one {α K : Type} [DecidableEq K] (κ : α → K)
    (l : List α) (k : K) (h : (l.map κ).Nodup) :
    (l.filter (fun r => κ r == k)).length ≤ 1 := by
  have hsub : ((l.filter (fun r => κ r == k)).map κ).Sublist (l.map κ) :=
    (List.filter_sublist l).map κ
  have hnd : ((l.filter (fun r => κ r == k)).map κ).Nodup := List.Nodup.sublist hsub h
  have hall : ∀ x ∈ (l.filter (fun r => κ r == k)).map κ, x = k := by
    intro x hx
    rcases List.mem_map.1 hx with ⟨r, hr, rfl⟩
    exact beq_iff_eq.1 (List.mem_filter.1 hr).2
  have hrep := List.eq_replicate_of_mem hall
  rw [hrep] at hnd
  calc (l.filter (fun r => κ r == k)).length
      = ((l.filter (fun r => κ r == k)).map κ).length := (List.length_map _ _).symm
    _ ≤ 1 := by
        rw [hrep, List.length_replicate]
        exact List.nodup_replicate.1 hnd

theorem updateRepoRows_eq (rid : Int) (row : RepoRow) (rows : List RepoRow)
    (hrow : row.repo_id = rid) (h : ReposSane rows) :
    updateRepoRows rid row rows = some (upsertBy repoKey row rows) := by
  have hfun : (fun r : RepoRow => decide (repoKey r = repoKey row)) =
      (fun r : RepoRow => r.repo_id == rid) := by
    funext r
    rw [Bool.eq_iff_iff]
    simp only [repoKey, hrow, decide_eq_true_eq, beq_iff_eq]
  have hfun2 : (fun r : RepoRow => if repoKey r = repoKey row then row else r) =
      (fun r : RepoRow => if r.repo_id == rid then row else r) := by
    funext r
    simp only [repoKey, hrow, beq_iff_eq]
  rw [updateRepoRows, upsertBy, hfun, hfun2]
  have hle : (rows.filter (fun r : RepoRow => r.repo_id == rid)).length ≤ 1 := by
    have := filter_key_length_le_one repoKey rows rid h
    simpa only [repoKey] using this
  by_cases hany : (rows.any fun r : RepoRow => r.repo_id == rid) = true
  · have hpos : 0 < (rows.filter (fun r : RepoRow => r.repo_id == rid)).length := by
      rcases List.any_eq_true.1 hany with ⟨r, hr, hrk⟩
      exact List.length_pos.2 (List.ne_nil_of_mem (List.mem_filter.2 ⟨hr, hrk⟩))
    have hone : (rows.filter (fun r : RepoRow => r.repo_id == rid)).length = 1 := by omega
    rw [hone, if_pos hany]
  · have hzero : (rows.filter (fun r : RepoRow => r.repo_id == rid)).length = 0 := by
      rw [List.length_eq_zero, List.filter_eq_nil_iff]
      intro r hr hc
      exact hany (List.any_eq_true.2 ⟨r, hr, hc⟩)
    rw [hzero, if_neg hany]

theorem actKey_beq (a : ActivityRow) (u rid w c : Int) :
    (actKey a == actKey { owner := u, repo_id := rid, week := w, commits := c }) =
      (a.owner == u && a.repo_id == rid && a.week == w) := by
  rw [Bool.eq_iff_iff]
  simp only [beq_iff_eq, actKey, Prod.mk.injEq, Bool.and_eq_true]
  tauto

theorem updateActivityRows_eq (u rid w c : Int) (rows : List ActivityRow)
    (hs : ActsSane u rows) :
    updateActivityRows u rid w c rows =
      some (upsertBy actKey { owner := u, repo_id := rid, week := w, commits := c } rows) := by
  obtain ⟨hown, hnd⟩ := hs
  have hfun : (fun a : ActivityRow =>
      decide (actKey a = actKey { owner := u, repo_id := rid, week := w, commits := c })) =
      (fun a : ActivityRow => a.owner == u && a.repo_id == rid && a.week == w) := by
    funext a
    rw [Bool.eq_iff_iff]
    simp only [decide_eq_true_eq, actKey, Prod.mk.injEq, Bool.and_eq_true, beq_iff_eq]
    tauto
  rw [updateActivityRows, upsertBy, hfun]
  by_cases hany : (rows.any fun a => a.owner == u && a.repo_id == rid && a.week == w) = true
  · rw [if_pos hany, if_pos hany]
    have hle : (rows.filter
        (fun a => a.owner == u && a.repo_id == rid && a.week == w)).length ≤ 1 := by
      have hsub : ((rows.filter
          (fun a => a.owner == u && a.repo_id == rid && a.week == w)).map
            (fun a => (a.repo_id, a.week))).Sublist
          (rows.map (fun a => (a.repo_id, a.week))) :=
        (List.filter_sublist rows).map _
      have hnd2 := List.Nodup.sublist hsub hnd
      have hall : ∀ x ∈ (rows.filter
          (fun a => a.owner == u && a.repo_id == rid && a.week == w)).map
            (fun a => (a.repo_id, a.week)), x = (rid, w) := by
        intro x hx
        rcases List.mem_map.1 hx with ⟨a, ha, rfl⟩
        have := (List.mem_filter.1 ha).2
        simp only [Bool.and_eq_true, beq_iff_eq] at this
        rw [this.1.2, this.2]
      have hrep := List.eq_replicate_of_mem hall
      rw [hrep] at hnd2
      calc (rows.filter (fun a => a.owner == u && a.repo_id == rid && a.week == w)).length
          = ((rows.filter (fun a => a.owner == u && a.repo_id == rid && a.week == w)).map
              (fun a => (a.repo_id, a.week))).length := (List.length_map _ _).symm
        _ ≤ 1 := by
            rw [hrep, List.length_replicate]
            exact List.nodup_replicate.1 hnd2
    have hpos : 0 < (rows.filter
        (fun a => a.owner == u && a.repo_id == rid && a.week == w)).length := by
      rcases List.any_eq_true.1 hany with ⟨a, ha, hk⟩
      exact List.length_pos.2 (List.ne_nil_of_mem (List.mem_filter.2 ⟨ha, hk⟩))
    rw [if_pos (by omega : (rows.filter
        (fun a => a.owner == u && a.repo_id == rid && a.week == w)).length = 1)]
    congr 1
    apply List.map_congr_left
    intro a _
    by_cases hc : (a.owner == u && a.repo_id == rid && a.week == w) = true
    · rw [if_pos hc]
      have hc2 := hc
      simp only [Bool.and_eq_true, beq_iff_eq] at hc2
      rw [if_pos (by
        simp only [actKey]
        rw [hc2.1.1, hc2.1.2, hc2.2])]
      cases a
      simp only at hc2
      simp [hc2.1.1, hc2.1.2, hc2.2]
    · rw [if_neg hc, if_neg (fun hk : actKey a =
        actKey { owner := u, repo_id := rid, week := w, commits := c } => by
          have : (a.owner == u && a.repo_id == rid && a.week == w) = true := by
            rw [← actKey_beq a u rid w c]
            exact beq_iff_eq.2 hk
          exact hc this)]
  · rw [if_neg hany, if_neg hany]
    have hpart : ¬ (rows.any fun a => a.repo_id == rid && a.week == w) = true := by
      intro hc
      rcases List.any_eq_true.1 hc with ⟨a, ha, hk⟩
      apply hany
      refine List.any_eq_true.2 ⟨a, ha, ?_⟩
      rw [show a.owner = u from hown a ha]
      simp only [Bool.and_eq_true] at hk ⊢
      exact ⟨⟨by simp, hk.1⟩, hk.2⟩
    rw [if_neg hpart]

theorem upsertBy_keys_nodup {α K : Type} [DecidableEq K] (κ : α → K) (v : α)
    (l : List α) (h : (l.map κ).Nodup) : ((upsertBy κ v l).map κ).Nodup := by
  rw [upsertBy]
  by_cases hany : (l.any fun r => decide (κ r = κ v)) = true
  · rw [if_pos hany, keys_replace]
    exact h
  · rw [if_neg hany, List.map_append]
    refine List.Nodup.append h (List.nodup_singleton _) ?_
    simp only [List.map_cons, List.map_nil, List.disjoint_singleton]
    exact fun hc => hany ((any_key_iff κ v l).2 hc)

theorem actsSane_upsertBy (u : Int) (v : ActivityRow) (rows : List ActivityRow)
    (hvo : v.owner = u) (hs : ActsSane u rows) : ActsSane u (upsertBy actKey v rows) := by
  obtain ⟨hown, hnd⟩ := hs
  rw [upsertBy]
  by_cases hany : (rows.any fun r => decide (actKey r = actKey v)) = true
  · rw [if_pos hany]
    constructor
    · intro a ha
      rcases List.mem_map.1 ha with ⟨b, hb, rfl⟩
      split
      · exact hvo
      · exact hown b hb
    · have : (rows.map (fun r => if actKey r = actKey v then v else r)).map
          (fun a => (a.repo_id, a.week)) = rows.map (fun a => (a.repo_id, a.week)) := by
        rw [List.map_map]
        apply List.map_congr_left
        intro a _
        simp only [Function.comp_apply]
        split
        · next hk =>
          have : a.repo_id = v.repo_id ∧ a.week = v.week := by
            have := congrArg (fun p : Int × Int × Int => (p.2.1, p.2.2)) hk
            simpa [actKey] using this
          rw [this.1, this.2]
        · rfl
      rw [this]
      exact hnd
  · rw [if_neg hany]
    constructor
    · intro a ha
      rcases List.mem_append.1 ha with ha | ha
      · exact hown a ha
      · rcases List.mem_singleton.1 ha with rfl
        exact hvo
    · rw [List.map_append]
      refine List.Nodup.append hnd (List.nodup_singleton _) ?_
      simp only [List.map_cons, List.map_nil, List.disjoint_singleton]
      intro hc
      rcases List.mem_map.1 hc with ⟨a, ha, hak⟩
      apply hany
      refine List.any_eq_true.2 ⟨a, ha, decide_eq_true ?_⟩
      have h1 : a.repo_id = v.repo_id := (Prod.mk.injEq _ _ _ _ ▸ hak).1
      have h2 : a.week = v.week := (Prod.mk.injEq _ _ _ _ ▸ hak).2
      have h3 : a.owner = v.owner := by rw [hown a ha, hvo]
      simp [actKey, h1, h2, h3]

theorem reposSane_runUpserts (ops : List RepoRow) :
    ∀ rows, ReposSane rows → ReposSane (runUpserts repoKey ops rows) := by
  induction ops with
  | nil => intro rows h; exact h
  | cons v rest ih =>
    intro rows h
    exact ih _ (upsertBy_keys_nodup repoKey v rows h)

theorem actsSane_runUpserts (u : Int) (ops : List ActivityRow)
    (hops : ∀ v ∈ ops, v.owner = u) :
    ∀ rows, ActsSane u rows → ActsSane u (runUpserts actKey ops rows) := by
  induction ops with
  | nil => intro rows h; exact h
  | cons v rest ih =>
    intro rows h
    exact ih (fun w hw => hops w (List.mem_cons_of_mem _ hw)) _
      (actsSane_upsertBy u v rows (hops v (List.mem_cons_self _ _)) h)

theorem applyActivityWeeks_eq (u rid : Int) (ws : List WeekPayload) :
    ∀ rows, ActsSane u rows →
      applyActivityWeeks u rid ws rows =
        runUpserts actKey (ws.map (weekRow u rid)) rows ∧
      ActsSane u (applyActivityWeeks u rid ws rows) := by
  induction ws with
  | nil => intro rows hs; exact ⟨rfl, hs⟩
  | cons w rest ih =>
    intro rows hs
    have hupd := updateActivityRows_eq u rid (weekRow u rid w).week
      (weekRow u rid w).commits rows hs
    have hupd2 : updateActivityRows u rid (weekRow u rid w).week
        (weekRow u rid w).commits rows =
        some (upsertBy actKey (weekRow u rid w) rows) := hupd
    have hsane : ActsSane u (upsertBy actKey (weekRow u rid w) rows) :=
      actsSane_upsertBy u _ rows rfl hs
    obtain ⟨ihe, ihs⟩ := ih (upsertBy actKey (weekRow u rid w) rows) hsane
    constructor
    · show applyActivityWeeks u rid (w :: rest) rows = _
      rw [applyActivityWeeks, hupd2]
      exact ihe
    · show ActsSane u (applyActivityWeeks u rid (w :: rest) rows)
      rw [applyActivityWeeks, hupd2]
      exact ihs

theorem upsertRepoM_cases (up : Upstream) (u : Int) (d : RepoPayload) (pin : Bool)
    (db : DB) (h1 : ReposSane db.repos) (h2 : ActsSane u db.activities) :
    (repoOpOf up u pin d = some none → upsertRepoM up u d pin db = (none, db)) ∧
    (repoOpOf up u pin d = none → upsertRepoM up u d pin db = (some .valueError, db)) ∧
    (∀ row, repoOpOf up u pin d = some (some row) →
      (upsertRepoM up u d pin db).1 = none ∧
      (upsertRepoM up u d pin db).2.repos = upsertBy repoKey row db.repos ∧
      (upsertRepoM up u d pin db).2.activities =
        runUpserts actKey (actOpsOfPayload up u d) db.activities ∧
      ReposSane (upsertRepoM up u d pin db).2.repos ∧
      ActsSane u (upsertRepoM up u d pin db).2.activities) := by
  by_cases hfal : (!truthyInt d.id || !truthyStr d.full_name) = true
  · refine ⟨fun _ => ?_, fun hc => ?_, fun row hc => ?_⟩
    · rw [upsertRepoM, if_pos hfal]
    · rw [repoOpOf, if_pos hfal] at hc
      simp at hc
    · rw [repoOpOf, if_pos hfal] at hc
      simp at hc
  · rcases hsp : pySplitSlash (d.full_name.getD "") with - | ⟨o, - | ⟨nm, - | ⟨x, t⟩⟩⟩
    · refine ⟨fun hc => ?_, fun _ => ?_, fun row hc => ?_⟩
      · rw [repoOpOf, if_neg hfal] at hc
        simp only [hsp] at hc
        simp at hc
      · rw [upsertRepoM, if_neg hfal]
        simp only [hsp]
      · rw [repoOpOf, if_neg hfal] at hc
        simp only [hsp] at hc
        simp at hc
    · refine ⟨fun hc => ?_, fun _ => ?_, fun row hc => ?_⟩
      · rw [repoOpOf, if_neg hfal] at hc
        simp only [hsp] at hc
        simp at hc
      · rw [upsertRepoM, if_neg hfal]
        simp only [hsp]
      · rw [repoOpOf, if_neg hfal] at hc
        simp only [hsp] at hc
        simp at hc
    · -- the successful split [o, nm]
      refine ⟨fun hc => ?_, fun hc => ?_, fun row hc => ?_⟩
      · rw [repoOpOf, if_neg hfal] at hc
        simp only [hsp] at hc
        simp at hc
      · rw [repoOpOf, if_neg hfal] at hc
        simp only [hsp] at hc
        simp at hc
      · rw [repoOpOf, if_neg hfal] at hc
        simp only [hsp, Option.some.injEq] at hc
        rw [upsertRepoM, if_neg hfal]
        rw [actOpsOfPayload, if_neg hfal]
        simp only [hsp]
        subst hc
        rw [updateRepoRows_eq (d.id.getD 0) _ db.repos rfl h1]
        cases hact : up.activity o nm with
        | error e =>
          dsimp only
          exact ⟨rfl, rfl, rfl, upsertBy_keys_nodup repoKey _ _ h1, h2⟩
        | ok weeks =>
          dsimp only
          obtain ⟨he, hsane⟩ :=
            applyActivityWeeks_eq u (d.id.getD 0) weeks db.activities h2
          exact ⟨rfl, rfl, he, upsertBy_keys_nodup repoKey _ _ h1, hsane⟩
    · refine ⟨fun hc => ?_, fun _ => ?_, fun row hc => ?_⟩
      · rw [repoOpOf, if_neg hfal] at hc
        simp only [hsp] at hc
        simp at hc
      · rw [upsertRepoM, if_neg hfal]
        simp only [hsp]
      · rw [repoOpOf, if_neg hfal] at hc
        simp only [hsp] at hc
        simp at hc

theorem runUpserts_append {α K : Type} [DecidableEq K] (κ : α → K)
    (ops1 ops2 : List α) (l : List α) :
    runUpserts κ (ops1 ++ ops2) l = runUpserts κ ops2 (runUpserts κ ops1 l) :=
  List.foldl_append _ _ _ _

theorem processRepos_eq (up : Upstream) (u : Int) (pin : Bool) (ds : List RepoPayload) :
    ∀ db : DB, ReposSane db.repos → ActsSane u db.activities →
      (processRepos up u pin ds db).2.repos =
        runUpserts repoKey (repoOpsList up u pin ds).1 db.repos ∧
      (processRepos up u pin ds db).2.activities =
        runUpserts actKey (repoOpsList up u pin ds).2.1 db.activities ∧
      ReposSane (processRepos up u pin ds db).2.repos ∧
      ActsSane u (processRepos up u pin ds db).2.activities := by
  induction ds with
  | nil =>
    intro db hr ha
    exact ⟨rfl, rfl, hr, ha⟩
  | cons d rest ih =>
    intro db hr ha
    obtain ⟨hskip, herr, hsucc⟩ := upsertRepoM_cases up u d pin db hr ha
    cases hop : repoOpOf up u pin d with
    | none =>
      have he := herr hop
      rw [processRepos, he]
      rw [repoOpsList, hop]
      exact ⟨rfl, rfl, hr, ha⟩
    | some oo =>
      cases oo with
      | none =>
        have he := hskip hop
        rw [processRepos, he]
        rw [repoOpsList, hop]
        exact ih db hr ha
      | some row =>
        obtain ⟨h1', h2', h3', h4', h5'⟩ := hsucc row hop
        have hpair : upsertRepoM up u d pin db =
            (none, (upsertRepoM up u d pin db).2) := Prod.ext h1' rfl
        rw [processRepos, hpair]
        rw [repoOpsList, hop]
        obtain ⟨ihr, iha, ihr2, iha2⟩ := ih ((upsertRepoM up u d pin db).2) h4' h5'
        refine ⟨?_, ?_, ihr2, iha2⟩
        · rw [ihr, h2']
          rfl
        · rw [iha, h3', ← runUpserts_append]

theorem processRepos_flag (up : Upstream) (u : Int) (pin : Bool) (ds : List RepoPayload) :
    ∀ db : DB, ReposSane db.repos → ActsSane u db.activities →
      ((processRepos up u pin ds db).1 = none ↔ (repoOpsList up u pin ds).2.2 = true) := by
  induction ds with
  | nil =>
    intro db _ _
    simp [processRepos, repoOpsList]
  | cons d rest ih =>
    intro db hr ha
    obtain ⟨hskip, herr, hsucc⟩ := upsertRepoM_cases up u d pin db hr ha
    cases hop : repoOpOf up u pin d with
    | none =>
      rw [processRepos, herr hop, repoOpsList, hop]
      simp
    | some oo =>
      cases oo with
      | none =>
        rw [processRepos, hskip hop, repoOpsList, hop]
        exact ih db hr ha
      | some row =>
        obtain ⟨h1', -, -, h4', h5'⟩ := hsucc row hop
        have hpair : upsertRepoM up u d pin db =
            (none, (upsertRepoM up u d pin db).2) := Prod.ext h1' rfl
        rw [processRepos, hpair, repoOpsList, hop]
        exact ih _ h4' h5'

theorem sync_all_eq (up : Upstream) (u : Int) (db : DB)
    (hr : ReposSane db.repos) (ha : ActsSane u db.activities) :
    (sync_all up u db).2.repos = runUpserts repoKey (syncOps up u).1 db.repos ∧
    (sync_all up u db).2.activities =
      runUpserts actKey (syncOps up u).2 db.activities ∧
    ReposSane (sync_all up u db).2.repos ∧
    ActsSane u (sync_all up u db).2.activities := by
  rw [sync_all, syncOps]
  by_cases htok : (!truthyStr up.token) = true
  · rw [if_pos htok, if_pos htok]
    exact ⟨rfl, rfl, hr, ha⟩
  · rw [if_neg htok, if_neg htok]
    cases hresp : up.user_resp with
    | error e => exact ⟨rfl, rfl, hr, ha⟩
    | ok ud =>
      dsimp only
      by_cases hlog : (!truthyStr ud.login) = true
      · rw [if_pos hlog, if_pos hlog]
        exact ⟨rfl, rfl, hr, ha⟩
      · rw [if_neg hlog, if_neg hlog]
        cases hpush : up.repos_pushed with
        | error e => exact ⟨rfl, rfl, hr, ha⟩
        | ok rsP =>
          dsimp only
          have hdb1r : ({ db with profile := some (upsertProfileRow ud), snapshots := db.snapshots ++ [ud] } : DB).repos = db.repos := rfl
          have hdb1a : ({ db with profile := some (upsertProfileRow ud), snapshots := db.snapshots ++ [ud] } : DB).activities = db.activities := rfl
          obtain ⟨p1, p2, p3, p4⟩ := processRepos_eq up u true
            (GitHubClient.get_pinned_repos rsP)
            { db with profile := some (upsertProfileRow ud), snapshots := db.snapshots ++ [ud] } (by rw [hdb1r]; exact hr)
            (by rw [hdb1a]; exact ha)
          have hflag := processRepos_flag up u true (GitHubClient.get_pinned_repos rsP)
            { db with profile := some (upsertProfileRow ud), snapshots := db.snapshots ++ [ud] } (by rw [hdb1r]; exact hr)
            (by rw [hdb1a]; exact ha)
          rw [hdb1r] at p1 p3
          rw [hdb1a] at p2 p4
          cases hflagv : (processRepos up u true (GitHubClient.get_pinned_repos rsP)
              { db with profile := some (upsertProfileRow ud), snapshots := db.snapshots ++ [ud] }).1 with
          | some e =>
            have hpair : processRepos up u true (GitHubClient.get_pinned_repos rsP)
                { db with profile := some (upsertProfileRow ud), snapshots := db.snapshots ++ [ud] } =
                (some e, (processRepos up u true (GitHubClient.get_pinned_repos rsP)
                  { db with profile := some (upsertProfileRow ud), snapshots := db.snapshots ++ [ud] }).2) := Prod.ext hflagv rfl
            have hfl : (repoOpsList up u true (GitHubClient.get_pinned_repos rsP)).2.2
                = false := by
              rcases Bool.eq_false_or_eq_true
                (repoOpsList up u true (GitHubClient.get_pinned_repos rsP)).2.2 with h | h
              · exact absurd (hflag.2 h) (by rw [hflagv]; simp)
              · exact h
            have htrip : repoOpsList up u true (GitHubClient.get_pinned_repos rsP) =
                ((repoOpsList up u true (GitHubClient.get_pinned_repos rsP)).1,
                 (repoOpsList up u true (GitHubClient.get_pinned_repos rsP)).2.1,
                 false) := Prod.ext rfl (Prod.ext rfl hfl)
            rw [hpair, htrip]
            exact ⟨p1, p2, p3, p4⟩
          | none =>
            have hpair : processRepos up u true (GitHubClient.get_pinned_repos rsP)
                { db with profile := some (upsertProfileRow ud), snapshots := db.snapshots ++ [ud] } =
                (none, (processRepos up u true (GitHubClient.get_pinned_repos rsP)
                  { db with profile := some (upsertProfileRow ud), snapshots := db.snapshots ++ [ud] }).2) := Prod.ext hflagv rfl
            have hfl : (repoOpsList up u true (GitHubClient.get_pinned_repos rsP)).2.2
                = true := hflag.1 hflagv
            have htrip : repoOpsList up u true (GitHubClient.get_pinned_repos rsP) =
                ((repoOpsList up u true (GitHubClient.get_pinned_repos rsP)).1,
                 (repoOpsList up u true (GitHubClient.get_pinned_repos rsP)).2.1,
                 true) := Prod.ext rfl (Prod.ext rfl hfl)
            rw [hpair, htrip]
            cases hupd : up.repos_updated with
            | error e =>
              exact ⟨p1, p2, p3, p4⟩
            | ok rsU =>
              dsimp only
              obtain ⟨q1, q2, q3, q4⟩ := processRepos_eq up u false rsU _ p3 p4
              refine ⟨?_, ?_, q3, q4⟩
              · rw [q1, p1, ← runUpserts_append]
              · rw [q2, p2, ← runUpserts_append]

/-! ## C3: idempotence of the ingest pipeline -/

/-- C3: running `sync_all` twice in a row with identical upstream payloads
leaves the store in the same observable state: the stored `Repository` rows
(keyed by the immutable `repo_id`) and `CommitActivity` rows (keyed by the
repository and week) after the second run are identical to those after the
first, and neither table holds a duplicate key. The store is assumed to
satisfy its own uniqueness constraints before the first run. -/
theorem sync_all_idempotent (up : Upstream) (u : Int) (db : DB)
    (hr : ReposSane db.repos) (ha : ActsSane u db.activities) :
    (sync_all up u (sync_all up u db).2).2.repos = (sync_all up u db).2.repos ∧
    (sync_all up u (sync_all up u db).2).2.activities =
      (sync_all up u db).2.activities ∧
    ReposSane (sync_all up u db).2.repos ∧
    ActsSane u (sync_all up u db).2.activities := by
  obtain ⟨e1, e2, s1, s2⟩ := sync_all_eq up u db hr ha
  obtain ⟨f1, f2, -, -⟩ := sync_all_eq up u (sync_all up u db).2 s1 s2
  refine ⟨?_, ?_, s1, s2⟩
  · rw [f1, e1]
    exact runUpserts_idem _ _ _
  · rw [f2, e2]
    exact runUpserts_idem _ _ _

theorem sync_all_idempotent_witness :
    ReposSane ([] : List RepoRow) ∧
    (sync_all
        { token := some "t", user_resp := .ok { login := some "alice" },
          repos_pushed := .ok [{ id := some 7, full_name := some "alice/widget" }],
          repos_updated := .ok [], langs := fun _ _ => .ok [("Python", 12)],
          activity := fun _ _ => .ok [{ week := some 604800, days := some [1, 0, 2, 0, 0, 0, 1] }] }
        1
        (sync_all
          { token := some "t", user_resp := .ok { login := some "alice" },
            repos_pushed := .ok [{ id := some 7, full_name := some "alice/widget" }],
            repos_updated := .ok [], langs := fun _ _ => .ok [("Python", 12)],
            activity := fun _ _ => .ok [{ week := some 604800, days := some [1, 0, 2, 0, 0, 0, 1] }] }
          1
          { repos := [], activities := [], profile := none, snapshots := [], fetch_log := [] }).2).2.repos =
      (sync_all
        { token := some "t", user_resp := .ok { login := some "alice" },
          repos_pushed := .ok [{ id := some 7, full_name := some "alice/widget" }],
          repos_updated := .ok [], langs := fun _ _ => .ok [("Python", 12)],
          activity := fun _ _ => .ok [{ week := some 604800, days := some [1, 0, 2, 0, 0, 0, 1] }] }
        1
        { repos := [], activities := [], profile := none, snapshots := [], fetch_log := [] }).2.repos := by
  refine ⟨by simp [ReposSane], ?_⟩
  exact (sync_all_idempotent _ 1 _ (by simp [ReposSane]) (by simp [ActsSane])).1

/-! ## C7: per-repo fetch failures are contained -/

/-- C7: while ingesting one well-formed repository payload, a failing
language fetch stores the empty language mapping yet the repository upsert
still happens; a failing commit-activity fetch is skipped without undoing
the repository upsert or touching the activity table; and in both cases no
exception escapes, so processing of the remaining payloads continues from
the updated store. -/
theorem upsert_repo_fault_tolerance (up : Upstream) (u : Int) (d : RepoPayload)
    (pin : Bool) (db : DB) (o nm : String)
    (hid : truthyInt d.id = true) (hfn : truthyStr d.full_name = true)
    (hsp : pySplitSlash (d.full_name.getD "") = [o, nm])
    (hr : ReposSane db.repos) (ha : ActsSane u db.activities)
    (hlang : up.langs o nm = .error ())
    (hact : up.activity o nm = .error ()) :
    (upsertRepoM up u d pin db).1 = none ∧
    (upsertRepoM up u d pin db).2.repos =
      upsertBy repoKey
        (mkRepoRow u (d.id.getD 0) d (d.full_name.getD "") nm [] pin) db.repos ∧
    (upsertRepoM up u d pin db).2.activities = db.activities ∧
    ∀ rest : List RepoPayload,
      processRepos up u pin (d :: rest) db =
        processRepos up u pin rest (upsertRepoM up u d pin db).2 := by
  have hop : repoOpOf up u pin d =
      some (some (mkRepoRow u (d.id.getD 0) d (d.full_name.getD "") nm [] pin)) := by
    rw [repoOpOf]
    simp only [hid, hfn, Bool.not_true, Bool.or_self, Bool.false_eq_true, if_false,
      hsp, hlang]
  obtain ⟨-, -, hsucc⟩ := upsertRepoM_cases up u d pin db hr ha
  obtain ⟨h1, h2, h3, -, -⟩ := hsucc _ hop
  have hacts : actOpsOfPayload up u d = [] := by
    rw [actOpsOfPayload]
    simp only [hid, hfn, Bool.not_true, Bool.or_self, Bool.false_eq_true, if_false,
      hsp, hact]
  refine ⟨h1, h2, ?_, ?_⟩
  · rw [h3, hacts]
    rfl
  · intro rest
    have hpair : upsertRepoM up u d pin db = (none, (upsertRepoM up u d pin db).2) :=
      Prod.ext h1 rfl
    rw [processRepos, hpair]

theorem upsert_repo_fault_tolerance_witness :
    truthyInt (some 7) = true ∧
    (upsertRepoM
        { token := some "t", user_resp := .error (), repos_pushed := .error (),
          repos_updated := .error (), langs := fun _ _ => .error (),
          activity := fun _ _ => .error () }
        1 { id := some 7, full_name := some "alice/widget" } true
        { repos := [], activities := [], profile := none, snapshots := [], fetch_log := [] }).1 = none := by
  refine ⟨by decide, ?_⟩
  exact (upsert_repo_fault_tolerance _ 1 _ true _ "alice" "widget" (by decide)
    (by decide) (by decide) (by simp [ReposSane]) (by simp [ActsSane]) rfl rfl).1

/-! ## C10: falsy id or full name skips the payload entirely -/

/-- C10: a repository payload whose provider id or full name is missing or
otherwise falsy makes the per-repository upsert return immediately: no
error, and the store is returned unchanged in every component — including
the fetch log, so no language or commit-activity fetch is attempted for that
payload. -/
theorem upsert_repo_skips_falsy (up : Upstream) (u : Int) (d : RepoPayload)
    (pin : Bool) (db : DB)
    (h : truthyInt d.id = false ∨ truthyStr d.full_name = false) :
    upsertRepoM up u d pin db = (none, db) := by
  have hc : (!truthyInt d.id || !truthyStr d.full_name) = true := by
    rcases h with h | h <;> simp [h]
  rw [upsertRepoM, if_pos hc]

theorem upsert_repo_skips_falsy_witness :
    (truthyInt ({ full_name := some "alice/widget" } : RepoPayload).id = false ∨
      truthyStr ({ full_name := some "alice/widget" } : RepoPayload).full_name = false) ∧
    upsertRepoM
        { token := some "t", user_resp := .error (), repos_pushed := .error (),
          repos_updated := .error (), langs := fun _ _ => .ok [("Python", 12)],
          activity := fun _ _ => .ok [] }
        1 { full_name := some "alice/widget" } false
        { repos := [], activities := [], profile := none, snapshots := [], fetch_log := [] } =
      (none, { repos := [], activities := [], profile := none, snapshots := [], fetch_log := [] }) :=
  ⟨Or.inl (by decide), upsert_repo_skips_falsy _ 1 _ false _ (Or.inl (by decide))⟩
